import Mathlib

/-!
# lazydistdb: storage engine, shard table, routing and replication

A shallow embedding of the Go sources `db/db.go`, `config/config.go`,
`web/web.go` and `replication/replication.go`, followed by theorems about them.

Conventions of the embedding:

* a Go `string` and a non-nil `[]byte` are both a list of bytes (`Bytes`); a
  `[]byte` that may be `nil` as a result (a missing key) is an `Option Bytes`;
* a Go `int` is an `Int`, a `uint64` is a `Nat` reduced modulo `2 ^ 64`;
* a Go `error` result is an `Option` of an error value, `none` being `nil`;
* a method that mutates the store returns the new store next to its error;
* a Go panic (division by zero) is the result `none`.
-/

namespace Lazydistdb

/-! ## Byte strings -/

/-- A byte string: the contents of a Go `string` or of a non-nil `[]byte`. -/
abbrev Bytes := List (Fin 256)

/-- Bytewise lexicographic comparison, `bytes.Compare a b < 0`: the key order of a
bolt bucket. -/
def bytesLess : Bytes → Bytes → Bool
  | [], [] => false
  | [], _ :: _ => true
  | _ :: _, [] => false
  | a :: as, b :: bs =>
    if a < b then true else if b < a then false else bytesLess as bs

/-- The bytes of a string literal of the source (`[]byte("...")`). -/
def lit (s : String) : Bytes := s.toUTF8.data.toList.map UInt8.val

/-! ## The bolt store

`go.etcd.io/bbolt` is a library, not part of the repository. A bucket is modelled
as what it is observably: a finite map from non-empty byte keys to byte values,
kept in ascending key order. Transactions are atomic: `Update` commits the
buckets its callback returns, or rolls back to the old ones when the callback
returns an error. `Put` rejects an empty key, a key longer than `MaxKeySize` and
a value longer than `MaxValueSize`, as bolt does. Failures of the disk are outside
the model. -/

/-- Errors of the storage engine, with the message of the source in `Error`. -/
inductive DbError where
  | readOnlyMode
  | keyDoesNotExist
  | valueDoesNotMatch
  | keyRequired
  | keyTooLarge
  | valueTooLarge
  deriving DecidableEq, Repr

/-- The message carried by each error. -/
def DbError.Error : DbError → String
  | .readOnlyMode => "read-only mode"
  | .keyDoesNotExist => "key does not exist"
  | .valueDoesNotMatch => "value does not match"
  | .keyRequired => "key required"
  | .keyTooLarge => "key too large"
  | .valueTooLarge => "value too large"

/-- The constant `MaxKeySize` of bolt: the largest length of a key, in bytes. -/
def MaxKeySize : Nat := 32768

/-- The constant `MaxValueSize` of bolt, `(1 << 31) - 2`: the largest length of a
value, in bytes. -/
def MaxValueSize : Nat := 2147483646

/-- A bolt bucket: key/value pairs in ascending key order. -/
abbrev Bucket := List (Bytes × Bytes)

/-- Go `Bucket.Get`: the value stored under `key`, `none` (Go `nil`) when absent. -/
def Bucket.Get : Bucket → Bytes → Option Bytes
  | [], _ => none
  | (k, v) :: rest, key => if k = key then some v else Bucket.Get rest key

/-- Insertion at the position of `key` in key order, replacing an entry with the
same key. -/
def Bucket.insert (key value : Bytes) : Bucket → Bucket
  | [] => [(key, value)]
  | (k, v) :: rest =>
    if k = key then (key, value) :: rest
    else if bytesLess key k then (key, value) :: (k, v) :: rest
    else (k, v) :: Bucket.insert key value rest

/-- Go `Bucket.Put`: fails with `ErrKeyRequired` on an empty key, with
`ErrKeyTooLarge` on a key longer than `MaxKeySize` and with `ErrValueTooLarge` on a
value longer than `MaxValueSize`; otherwise it stores the pair. -/
def Bucket.Put (b : Bucket) (key value : Bytes) : Except DbError Bucket :=
  if key.length = 0 then .error .keyRequired
  else if MaxKeySize < key.length then .error .keyTooLarge
  else if MaxValueSize < value.length then .error .valueTooLarge
  else .ok (Bucket.insert key value b)

/-- A key and a value `Bucket.Put` accepts. -/
def Storable (key value : Bytes) : Prop :=
  key ≠ [] ∧ key.length ≤ MaxKeySize ∧ value.length ≤ MaxValueSize

instance Storable.decidable (key value : Bytes) : Decidable (Storable key value) := by
  unfold Storable
  infer_instance

/-- Go `Bucket.Delete`: removes the entry of `key`; a missing key is not an error. -/
def Bucket.Delete (b : Bucket) (key : Bytes) : Except DbError Bucket :=
  .ok (b.filter (fun e => !decide (e.1 = key)))

/-- Go `Bucket.Cursor().First()`: the entry with the smallest key, `(nil, nil)` on an
empty bucket. -/
def Bucket.First : Bucket → Option Bytes × Option Bytes
  | [] => (none, none)
  | (k, v) :: _ => (some k, some v)

/-- The two buckets a transaction sees: `defaultBucket` and `replicaBucket`. -/
structure Tx where
  defaultBucket : Bucket
  replicaBucket : Bucket
  deriving DecidableEq, Repr

/-- The `Database` struct of db.go: the bolt store and the read-only flag. -/
structure Database where
  db : Tx
  readOnly : Bool
  deriving DecidableEq, Repr

/-- Go `bolt.DB.Update`: commit on `nil`, roll back on error. -/
def Database.Update (d : Database) (f : Tx → Except DbError Tx) :
    Database × Option DbError :=
  match f d.db with
  | .ok tx => ({ d with db := tx }, none)
  | .error e => (d, some e)

/-- The store right after `NewDatabase` on a fresh file: both buckets created and
empty. -/
def NewDatabase (readOnly : Bool) : Database :=
  { db := { defaultBucket := [], replicaBucket := [] }, readOnly := readOnly }

/-- Go `Database.SetKey` (db.go:61). -/
def Database.SetKey (d : Database) (key value : Bytes) : Database × Option DbError :=
  if d.readOnly then (d, some .readOnlyMode)
  else
    d.Update fun tx =>
      match tx.defaultBucket.Put key value with
      | .error err => .error err
      | .ok dflt =>
        match tx.replicaBucket.Put key value with
        | .error err => .error err
        | .ok repl => .ok { defaultBucket := dflt, replicaBucket := repl }

/-- Go `Database.SetKeyOnReplica` (db.go:80). -/
def Database.SetKeyOnReplica (d : Database) (key value : Bytes) :
    Database × Option DbError :=
  d.Update fun tx =>
    match tx.defaultBucket.Put key value with
    | .error err => .error err
    | .ok dflt => .ok { tx with defaultBucket := dflt }

/-- Go `copyByteSlice` (db.go:87): `nil` stays `nil`, otherwise a copy. -/
def copyByteSlice : Option Bytes → Option Bytes
  | none => none
  | some b => some b

/-- Go `Database.GetNextKeyForReplication` (db.go:98): a read-only transaction, so the
store is not part of the result. -/
def Database.GetNextKeyForReplication (d : Database) :
    Option Bytes × Option Bytes × Option DbError :=
  let kv := d.db.replicaBucket.First
  (copyByteSlice kv.1, copyByteSlice kv.2, none)

/-- Go `Database.DeleteReplicationKey` (db.go:116). -/
def Database.DeleteReplicationKey (d : Database) (key value : Bytes) :
    Database × Option DbError :=
  d.Update fun tx =>
    match tx.replicaBucket.Get key with
    | none => .error .keyDoesNotExist
    | some v =>
      if v ≠ value then .error .valueDoesNotMatch
      else
        match tx.replicaBucket.Delete key with
        | .error err => .error err
        | .ok repl => .ok { tx with replicaBucket := repl }

/-- Go `Database.GetKey` (db.go:134): a read-only transaction. -/
def Database.GetKey (d : Database) (key : Bytes) : Option Bytes × Option DbError :=
  (copyByteSlice (d.db.defaultBucket.Get key), none)

/-- The first pass of `DeleteExtraKeys`: `ForEach` over the default bucket in key
order, collecting the keys `isExtra` accepts. `isExtra` is a Go function value and
may panic, which aborts the pass. -/
def collectExtraKeys (isExtra : Bytes → Option Bool) : Bucket → Option (List Bytes)
  | [] => some []
  | (k, _) :: rest =>
    match isExtra k with
    | none => none
    | some extra =>
      match collectExtraKeys isExtra rest with
      | none => none
      | some keys => some (if extra then k :: keys else keys)

/-- The second pass of `DeleteExtraKeys`: delete the collected keys one by one. -/
def deleteKeys : List Bytes → Bucket → Except DbError Bucket
  | [], b => .ok b
  | k :: keys, b =>
    match b.Delete k with
    | .error err => .error err
    | .ok b1 => deleteKeys keys b1

/-- Go `Database.DeleteExtraKeys` (db.go:150); `none` when `isExtra` panics. -/
def Database.DeleteExtraKeys (d : Database) (isExtra : Bytes → Option Bool) :
    Option (Database × Option DbError) :=
  match collectExtraKeys isExtra d.db.defaultBucket with
  | none => none
  | some keys =>
    some (d.Update fun tx =>
      match deleteKeys keys tx.defaultBucket with
      | .error err => .error err
      | .ok dflt => .ok { tx with defaultBucket := dflt })

/-- Strictly ascending keys, none empty: what every bolt bucket satisfies. -/
def Bucket.WF (b : Bucket) : Prop :=
  b.Pairwise (fun x y => bytesLess x.1 y.1 = true) ∧ ∀ e ∈ b, e.1 ≠ []

instance Bucket.decidableWF (b : Bucket) : Decidable (Bucket.WF b) := by
  unfold Bucket.WF
  infer_instance

/-- A store both of whose buckets are well-formed. -/
def Database.WF (d : Database) : Prop :=
  Bucket.WF d.db.defaultBucket ∧ Bucket.WF d.db.replicaBucket

instance Database.decidableWF (d : Database) : Decidable d.WF := by
  unfold Database.WF
  infer_instance

/-! ## config/config.go: the shard table -/

/-- The `Shard` struct of config.go (its unexported, unused field `close` is left
out). -/
structure Shard where
  Name : Bytes
  Idx : Int
  Address : Bytes
  deriving DecidableEq, Repr

/-- A Go `map[int]string`, as an association list with at most one pair per key. -/
abbrev AddrMap := List (Int × Bytes)

/-- The lookup `v, ok := m[k]`. -/
def AddrMap.get : AddrMap → Int → Option Bytes
  | [], _ => none
  | (i, a) :: rest, k => if i = k then some a else AddrMap.get rest k

/-- The assignment `m[k] = v`. -/
def AddrMap.set (m : AddrMap) (k : Int) (v : Bytes) : AddrMap :=
  (k, v) :: m.filter (fun e => !decide (e.1 = k))

/-- The `Shards` struct of config.go. -/
structure Shards where
  Count : Int
  CurIdx : Int
  Addrs : AddrMap
  deriving DecidableEq, Repr

/-- The errors of `ParseShards`: "duplicate shard index: %d", "shard %d is not
found" and "shard %q was not found". -/
inductive ConfigError where
  | duplicateShardIndex (idx : Int)
  | shardIsNotFound (i : Int)
  | shardWasNotFound (curShardName : Bytes)
  deriving DecidableEq, Repr

/-- The first loop of `ParseShards` (config.go:51), from the current `addrs` and
`shardIdx`. -/
def parseEntries (curShardName : Bytes) :
    List Shard → AddrMap → Int → Except ConfigError (AddrMap × Int)
  | [], addrs, shardIdx => .ok (addrs, shardIdx)
  | s :: rest, addrs, shardIdx =>
    if (addrs.get s.Idx).isSome then .error (.duplicateShardIndex s.Idx)
    else
      parseEntries curShardName rest (addrs.set s.Idx s.Address)
        (if s.Name = curShardName then s.Idx else shardIdx)

/-- The second loop of `ParseShards` (config.go:67): the first `i < shardCount`
that has no address. -/
def firstMissing (addrs : AddrMap) (shardCount : Nat) : Option Nat :=
  (List.range shardCount).find? (fun i => (addrs.get (i : Int)).isNone)

/-- Go `ParseShards` (config.go:40). -/
def ParseShards (shards : List Shard) (curShardName : Bytes) :
    Except ConfigError Shards :=
  let shardCount : Int := shards.length
  match parseEntries curShardName shards [] (-1) with
  | .error err => .error err
  | .ok (addrs, shardIdx) =>
    match firstMissing addrs shards.length with
    | some i => .error (.shardIsNotFound i)
    | none =>
      if shardIdx < 0 then .error (.shardWasNotFound curShardName)
      else .ok { Addrs := addrs, Count := shardCount, CurIdx := shardIdx }

/-- The offset basis of 64-bit FNV. -/
def offset64 : Nat := 14695981039346656037

/-- The prime of 64-bit FNV. -/
def prime64 : Nat := 1099511628211

/-- Go `fnv.New64()`, `Write` and `Sum64`: the FNV-1 hash, multiply then xor, in
64-bit arithmetic. -/
def Sum64 (data : Bytes) : Nat :=
  data.foldl (fun hash c => ((hash * prime64) % 2 ^ 64) ^^^ c.val) offset64

/-- The conversion `uint64(n)` of a Go `int`. -/
def uint64 (n : Int) : Nat := (n % 2 ^ 64).toNat

/-- The conversion `int(n)` of a Go `uint64`. -/
def int (n : Nat) : Int := if n < 2 ^ 63 then (n : Int) else (n : Int) - 2 ^ 64

/-- Go `Shards.Index` (config.go:88); `none` is the panic of a division by zero. -/
def Shards.Index (s : Shards) (key : Bytes) : Option Int :=
  if uint64 s.Count = 0 then none
  else some (int (Sum64 key % uint64 s.Count))

/-! ## web/web.go: the handlers

`net/http` is a library. A `ResponseWriter` is the status and the body written so
far: the first `Write` sends the header with status 200 when none was sent, and a
`WriteHeader` after that is ignored. An outgoing `http.Get` is a function from the
URL to a transport error or the response. `strconv.Quote`, behind the verb `%q`,
is a function the handlers take. -/

/-- The part of `http.Request` the handlers read: the request URI and the form
values `key` and `value`. -/
structure Request where
  RequestURI : Bytes
  key : Bytes
  value : Bytes
  deriving DecidableEq, Repr

/-- What has been sent to the caller: the status, once the header was written, and
the body. -/
structure ResponseWriter where
  status : Option Nat
  body : Bytes
  deriving DecidableEq, Repr

/-- Go `ResponseWriter.Write`. -/
def ResponseWriter.Write (w : ResponseWriter) (p : Bytes) : ResponseWriter :=
  { status := some (w.status.getD 200), body := w.body ++ p }

/-- Go `ResponseWriter.WriteHeader`. -/
def ResponseWriter.WriteHeader (w : ResponseWriter) (code : Nat) : ResponseWriter :=
  match w.status with
  | some _ => w
  | none => { w with status := some code }

/-- A response writer nothing was written to. -/
def ResponseWriter.fresh : ResponseWriter := { status := none, body := [] }

/-- The verb `%v` of an `error`. -/
def fmtErr : Option DbError → Bytes
  | none => lit "<nil>"
  | some err => lit err.Error

/-- The `Server` struct of web.go. -/
structure Server where
  db : Database
  shards : Shards
  deriving DecidableEq, Repr

/-- The predicate `DeleteExtraKeysHandler` passes to the store (web.go:89). -/
def Server.isExtra (s : Server) (key : Bytes) : Option Bool :=
  match s.shards.Index key with
  | none => none
  | some shard => some (decide (shard ≠ s.shards.CurIdx))

/-- Go `Server.DeleteExtraKeysHandler` (web.go:87). -/
def Server.DeleteExtraKeysHandler (s : Server) (w : ResponseWriter) :
    Option (Database × ResponseWriter) :=
  match s.db.DeleteExtraKeys s.isExtra with
  | none => none
  | some res => some (res.1, w.Write (lit "Error = " ++ fmtErr res.2))

/-! ## replication/replication.go: the replica loop -/

/-- The `NextKeyValue` struct of replication.go; `Err` holds the message of the
error, `none` being `nil`. -/
structure NextKeyValue where
  Key : Bytes
  Value : Bytes
  Err : Option Bytes
  deriving DecidableEq, Repr

/-- A response body as the JSON decoder of `client.loop` sees it: not a JSON object
with string members `Key` and `Value`, or such an object, whose member `Err` is
`none` when it is `null` or absent and the JSON text of its value otherwise. -/
inductive Body where
  | invalid (msg : Bytes)
  | object (Key Value : Bytes) (Err : Option Bytes)
  deriving DecidableEq, Repr

/-- Go `Server.GetNextKeyForReplication` (web.go:94): the body it encodes. The JSON
encoder writes a string with its invalid UTF-8 replaced, which is the function
`validUTF8`, `null` for a nil `Err`, and the empty object for an error value, which
has no exported field. -/
def Server.GetNextKeyForReplication (s : Server) (validUTF8 : Bytes → Bytes) : Body :=
  let res := s.db.GetNextKeyForReplication
  .object (validUTF8 (res.1.getD [])) (validUTF8 (res.2.1.getD []))
    (res.2.2.map (fun _ => lit "\x7b\x7d"))

/-- Go `Server.DeleteReplicationKey` (web.go:106): the store afterwards and what was
written. -/
def Server.DeleteReplicationKey (s : Server) (w : ResponseWriter) (r : Request) :
    Database × ResponseWriter :=
  let res := s.db.DeleteReplicationKey r.key r.value
  match res.2 with
  | some err => (res.1, (w.WriteHeader 417).Write (lit "error: " ++ lit err.Error))
  | none => (res.1, w.Write (lit "ok"))

/-- The errors one iteration of the replica loop can return. -/
inductive LoopError where
  | transport (msg : Bytes)
  | decoding (msg : Bytes)
  | unmarshalType
  | store (err : DbError)
  deriving DecidableEq, Repr

/-- Go `json.NewDecoder(resp.Body).Decode(&res)` (replication.go:61) on a fresh
`NextKeyValue`. The field `Err` has the interface type `error`: the decoder leaves
it nil on `null`, and fails with an `UnmarshalTypeError` on any other value, which it
cannot store in an interface that has methods. -/
def Decode : Body → Except LoopError NextKeyValue
  | .invalid msg => .error (.decoding msg)
  | .object key value none => .ok { Key := key, Value := value, Err := none }
  | .object _ _ (some _) => .error .unmarshalType

/-- The primary as the replica reaches it: the outcome of the request for the next
key, a transport error or the body, and the outcome of the request to delete a key
and value from the replication queue, a transport error or the body. -/
structure Primary where
  next : Except Bytes Body
  delete : Bytes → Bytes → Except Bytes Bytes

/-- A request the replica sends with `http.Get`: for "/next-replication-key", or for
"/delete-replication-key" with the form values `key` and `value`. -/
inductive Call where
  | nextReplicationKey (addr : Bytes)
  | deleteReplicationKey (addr key value : Bytes)
  deriving DecidableEq, Repr

/-- The `client` struct of replication.go. -/
structure client where
  db : Database
  masterAddr : Bytes
  deriving DecidableEq, Repr

/-- What one iteration did and returned: the local store afterwards, the requests
sent, the acknowledgment failure it logged, and the results `present` and `err`. -/
structure LoopResult where
  db : Database
  sent : List Call
  logged : Option Bytes
  present : Bool
  err : Option LoopError
  deriving DecidableEq, Repr

/-- Go `client.deleteFromReplicationQueue` (replication.go:90): the request it sends
and the error it returns. -/
def client.deleteFromReplicationQueue (c : client) (p : Primary) (key value : Bytes) :
    List Call × Option Bytes :=
  ([.deleteReplicationKey c.masterAddr key value],
    match p.delete key value with
    | .error err => some err
    | .ok result => if result ≠ lit "ok" then some result else none)

/-- Go `client.loop` (replication.go:51). The variable `err` is the one assigned by
`http.Get`; the errors of the later `if err := ...` statements are local to them. -/
def client.loop (c : client) (p : Primary) : LoopResult :=
  let sent : List Call := [.nextReplicationKey c.masterAddr]
  let err : Option LoopError :=
    match p.next with
    | .error e => some (.transport e)
    | .ok _ => none
  match p.next with
  | .error _ => { db := c.db, sent := sent, logged := none, present := false, err := err }
  | .ok body =>
    match Decode body with
    | .error e =>
      { db := c.db, sent := sent, logged := none, present := false, err := some e }
    | .ok res =>
      if res.Err ≠ none then
        { db := c.db, sent := sent, logged := none, present := false, err := err }
      else if res.Key = [] then
        { db := c.db, sent := sent, logged := none, present := false, err := none }
      else
        match c.db.SetKeyOnReplica res.Key res.Value with
        | (db1, some e) =>
          { db := db1, sent := sent, logged := none, present := false,
            err := some (.store e) }
        | (db1, none) =>
          let ack := c.deleteFromReplicationQueue p res.Key res.Value
          { db := db1, sent := sent ++ ack.1, logged := ack.2, present := true,
            err := none }

/-- The pause `ClientLoop` (replication.go:30) makes after an iteration, in
milliseconds. -/
def ClientLoopSleep (r : LoopResult) : Nat :=
  if r.err ≠ none then 1000
  else if !r.present then 100
  else 0

/-! ## Histories of the storage engine -/

/-- A call on the storage engine. -/
inductive Op where
  | Put (key value : Bytes)
  | PutLocalOnly (key value : Bytes)
  | AckOutboxEntry (key value : Bytes)
  | PurgeNonOwnedKeys (isExtra : Bytes → Bool)

/-- The store and the error after one call. -/
def Database.apply (d : Database) : Op → Database × Option DbError
  | .Put key value => d.SetKey key value
  | .PutLocalOnly key value => d.SetKeyOnReplica key value
  | .AckOutboxEntry key value => d.DeleteReplicationKey key value
  | .PurgeNonOwnedKeys isExtra =>
    match d.DeleteExtraKeys (fun k => some (isExtra k)) with
    | some res => res
    | none => (d, none)

/-- The store after a sequence of calls. -/
def Database.run (d : Database) : List Op → Database
  | [] => d
  | op :: ops => Database.run (d.apply op).1 ops

/-- The calls of a sequence, each with whether it succeeded. -/
def Database.trace (d : Database) : List Op → List (Op × Bool)
  | [] => []
  | op :: ops => (op, (d.apply op).2.isNone) :: Database.trace (d.apply op).1 ops

/-- A successful `Put` on `key`. -/
def isPutOn (key : Bytes) : Op × Bool → Bool
  | (.Put k _, true) => decide (k = key)
  | _ => false

/-- A successful `AckOutboxEntry` on `key`. -/
def isAckOn (key : Bytes) : Op × Bool → Bool
  | (.AckOutboxEntry k _, true) => decide (k = key)
  | _ => false

/-- What the outbox holds for `key` after one more call, from what it held before. -/
def pendingAfter (key : Bytes) (acc : Option Bytes) : Op × Bool → Option Bytes
  | (.Put k v, true) => if k = key then some v else acc
  | (.AckOutboxEntry k _, true) => if k = key then none else acc
  | _ => acc

/-! ## The key order -/

theorem bytesLess_irrefl (a : Bytes) : bytesLess a a = false := by
  induction a with
  | nil => rfl
  | cons x xs ih => simp [bytesLess, ih]

theorem bytesLess_trans {a b c : Bytes} (hab : bytesLess a b = true)
    (hbc : bytesLess b c = true) : bytesLess a c = true := by
  induction a generalizing b c with
  | nil =>
    cases b with
    | nil => simp [bytesLess] at hab
    | cons y ys =>
      cases c with
      | nil => simp [bytesLess] at hbc
      | cons z zs => simp [bytesLess]
  | cons x xs ih =>
    cases b with
    | nil => simp [bytesLess] at hab
    | cons y ys =>
      cases c with
      | nil => simp [bytesLess] at hbc
      | cons z zs =>
        simp only [bytesLess] at hab hbc ⊢
        rcases lt_trichotomy x y with hxy | hxy | hxy
        · rcases lt_trichotomy y z with hyz | hyz | hyz
          · simp [lt_trans hxy hyz]
          · subst hyz; simp [hxy]
          · simp [hyz, not_lt_of_gt hyz] at hbc
        · subst hxy
          rcases lt_trichotomy x z with hxz | hxz | hxz
          · simp [hxz]
          · subst hxz
            simp only [lt_irrefl, if_false] at hab hbc ⊢
            exact ih hab hbc
          · simp [hxz, not_lt_of_gt hxz] at hbc
        · simp [hxy, not_lt_of_gt hxy] at hab

theorem bytesLess_total {a b : Bytes} (hne : a ≠ b) (hab : bytesLess a b = false) :
    bytesLess b a = true := by
  induction a generalizing b with
  | nil =>
    cases b with
    | nil => exact absurd rfl hne
    | cons y ys => simp [bytesLess] at hab
  | cons x xs ih =>
    cases b with
    | nil => simp [bytesLess]
    | cons y ys =>
      simp only [bytesLess] at hab ⊢
      rcases lt_trichotomy x y with hxy | hxy | hxy
      · simp [hxy] at hab
      · subst hxy
        simp only [lt_irrefl, if_false] at hab ⊢
        exact ih (fun h => hne (by rw [h])) hab
      · simp [hxy]

theorem bytesLess_ne {a b : Bytes} (hab : bytesLess a b = true) : a ≠ b := by
  intro h
  subst h
  rw [bytesLess_irrefl] at hab
  exact Bool.noConfusion hab

/-! ## Buckets -/

theorem Bucket.get_insert_self (key value : Bytes) (b : Bucket) :
    Bucket.Get (Bucket.insert key value b) key = some value := by
  induction b with
  | nil => simp [Bucket.insert, Bucket.Get]
  | cons e rest ih =>
    obtain ⟨k, v⟩ := e
    by_cases h1 : k = key
    · simp [Bucket.insert, Bucket.Get, h1]
    · by_cases h2 : bytesLess key k = true
      · simp [Bucket.insert, Bucket.Get, h1, h2]
      · simp [Bucket.insert, Bucket.Get, h1, h2, ih]

theorem Bucket.get_insert_other {key other : Bytes} (value : Bytes) (b : Bucket)
    (hne : other ≠ key) :
    Bucket.Get (Bucket.insert key value b) other = Bucket.Get b other := by
  have hne2 : ¬ key = other := fun h => hne h.symm
  induction b with
  | nil => simp [Bucket.insert, Bucket.Get, hne2]
  | cons e rest ih =>
    obtain ⟨k, v⟩ := e
    by_cases h1 : k = key
    · subst h1
      simp [Bucket.insert, Bucket.Get, hne2]
    · by_cases h2 : bytesLess key k = true
      · simp [Bucket.insert, Bucket.Get, h1, h2, hne2]
      · simp [Bucket.insert, Bucket.Get, h1, h2, ih]

theorem Bucket.get_filter_self (key : Bytes) (b : Bucket) :
    Bucket.Get (b.filter (fun e => !decide (e.1 = key))) key = none := by
  induction b with
  | nil => simp [Bucket.Get]
  | cons e rest ih =>
    obtain ⟨k, v⟩ := e
    by_cases h1 : k = key
    · simp [List.filter_cons, h1, ih]
    · simp [List.filter_cons, h1, Bucket.Get, ih]

theorem Bucket.get_filter_other {key other : Bytes} (b : Bucket) (hne : other ≠ key) :
    Bucket.Get (b.filter (fun e => !decide (e.1 = key))) other = Bucket.Get b other := by
  induction b with
  | nil => simp [Bucket.Get]
  | cons e rest ih =>
    obtain ⟨k, v⟩ := e
    by_cases h1 : k = key
    · subst h1
      have : ¬ k = other := fun h => hne h.symm
      simp [List.filter_cons, Bucket.Get, this, ih]
    · simp [List.filter_cons, h1, Bucket.Get, ih]

theorem Bucket.get_eq_none_iff (key : Bytes) (b : Bucket) :
    Bucket.Get b key = none ↔ ∀ e ∈ b, e.1 ≠ key := by
  induction b with
  | nil => simp [Bucket.Get]
  | cons e rest ih =>
    obtain ⟨k, v⟩ := e
    by_cases h1 : k = key
    · simp [Bucket.Get, h1]
    · simp [Bucket.Get, h1, ih]

theorem Bucket.mem_of_get {key value : Bytes} {b : Bucket}
    (h : Bucket.Get b key = some value) : (key, value) ∈ b := by
  induction b with
  | nil => simp [Bucket.Get] at h
  | cons e rest ih =>
    obtain ⟨k, v⟩ := e
    by_cases h1 : k = key
    · simp [Bucket.Get, h1] at h
      simp [h1, h]
    · simp [Bucket.Get, h1] at h
      exact List.mem_cons_of_mem _ (ih h)

theorem Bucket.filter_ne_insert (key value : Bytes) (b : Bucket) :
    (Bucket.insert key value b).filter (fun e => !decide (e.1 = key))
      = b.filter (fun e => !decide (e.1 = key)) := by
  induction b with
  | nil => simp [Bucket.insert]
  | cons e rest ih =>
    obtain ⟨k, v⟩ := e
    by_cases h1 : k = key
    · simp [Bucket.insert, List.filter_cons, h1]
    · by_cases h2 : bytesLess key k = true
      · simp [Bucket.insert, List.filter_cons, h1, h2]
      · simp [Bucket.insert, List.filter_cons, h1, h2, ih]

theorem Bucket.mem_insert {key value : Bytes} {b : Bucket} {e : Bytes × Bytes}
    (h : e ∈ Bucket.insert key value b) : e = (key, value) ∨ e ∈ b := by
  induction b with
  | nil => simpa [Bucket.insert] using h
  | cons x rest ih =>
    obtain ⟨k, v⟩ := x
    by_cases h1 : k = key
    · simp only [Bucket.insert, h1, if_true, List.mem_cons] at h
      rcases h with h | h
      · exact Or.inl h
      · exact Or.inr (List.mem_cons_of_mem _ h)
    · by_cases h2 : bytesLess key k = true
      · simp only [Bucket.insert, h1, h2, if_true, if_false, List.mem_cons] at h
        rcases h with h | h | h
        · exact Or.inl h
        · exact Or.inr (by simp [h])
        · exact Or.inr (List.mem_cons_of_mem _ h)
      · simp only [Bucket.insert, h1, h2, Bool.false_eq_true, if_false, List.mem_cons] at h
        rcases h with h3 | h3
        · exact Or.inr (by simp [h3])
        · rcases ih h3 with h4 | h4
          · exact Or.inl h4
          · exact Or.inr (List.mem_cons_of_mem _ h4)

theorem Bucket.WF_nil : Bucket.WF [] := by
  simp [Bucket.WF]

theorem Bucket.WF_tail {e : Bytes × Bytes} {b : Bucket} (h : Bucket.WF (e :: b)) :
    Bucket.WF b := by
  refine ⟨(List.pairwise_cons.mp h.1).2, fun x hx => h.2 x (List.mem_cons_of_mem _ hx)⟩

theorem Bucket.WF_insert {key : Bytes} (value : Bytes) {b : Bucket} (hb : Bucket.WF b)
    (hkey : key ≠ []) : Bucket.WF (Bucket.insert key value b) := by
  induction b with
  | nil => simp [Bucket.insert, Bucket.WF, hkey]
  | cons e rest ih =>
    obtain ⟨k, v⟩ := e
    have hp := List.pairwise_cons.mp hb.1
    by_cases h1 : k = key
    · subst h1
      simp only [Bucket.insert, if_true]
      refine ⟨List.pairwise_cons.mpr ⟨fun x hx => hp.1 x hx, hp.2⟩, ?_⟩
      intro x hx
      rcases List.mem_cons.mp hx with h | h
      · rw [h]; exact hkey
      · exact hb.2 x (List.mem_cons_of_mem _ h)
    · by_cases h2 : bytesLess key k = true
      · simp only [Bucket.insert, h1, h2, if_true, if_false]
        refine ⟨List.pairwise_cons.mpr ⟨?_, hb.1⟩, ?_⟩
        · intro x hx
          rcases List.mem_cons.mp hx with h | h
          · rw [h]; exact h2
          · exact bytesLess_trans h2 (hp.1 x h)
        · intro x hx
          rcases List.mem_cons.mp hx with h | h
          · rw [h]; exact hkey
          · exact hb.2 x h
      · simp only [Bucket.insert, h1, h2, if_false]
        have hrest := ih (Bucket.WF_tail hb)
        have hlt : bytesLess k key = true :=
          bytesLess_total (fun h => h1 h.symm) (by simpa using h2)
        refine ⟨List.pairwise_cons.mpr ⟨?_, hrest.1⟩, ?_⟩
        · intro x hx
          rcases Bucket.mem_insert hx with h | h
          · rw [h]; exact hlt
          · exact hp.1 x h
        · intro x hx
          rcases List.mem_cons.mp hx with h | h
          · rw [h]; exact hb.2 (k, v) (List.mem_cons_self _ _)
          · exact hrest.2 x h

theorem Bucket.WF_filter (f : Bytes × Bytes → Bool) {b : Bucket} (hb : Bucket.WF b) :
    Bucket.WF (b.filter f) :=
  ⟨hb.1.sublist (List.filter_sublist b), fun e he => hb.2 e (List.mem_of_mem_filter he)⟩

theorem Bucket.filter_eq_insert {key : Bytes} (value : Bytes) {b : Bucket}
    (hb : Bucket.WF b) :
    (Bucket.insert key value b).filter (fun e => decide (e.1 = key)) = [(key, value)] := by
  induction b with
  | nil => simp [Bucket.insert]
  | cons e rest ih =>
    obtain ⟨k, v⟩ := e
    have hp := List.pairwise_cons.mp hb.1
    have hgt : ∀ x ∈ rest, bytesLess key x.1 = true → x.1 ≠ key :=
      fun x _ hx h => bytesLess_ne hx h.symm
    by_cases h1 : k = key
    · subst h1
      have : rest.filter (fun e => decide (e.1 = k)) = [] := by
        rw [List.filter_eq_nil_iff]
        intro x hx
        simpa using fun h => bytesLess_ne (hp.1 x hx) h.symm
      simp [Bucket.insert, List.filter_cons, this]
    · by_cases h2 : bytesLess key k = true
      · have : rest.filter (fun e => decide (e.1 = key)) = [] := by
          rw [List.filter_eq_nil_iff]
          intro x hx
          simpa using fun h => bytesLess_ne (bytesLess_trans h2 (hp.1 x hx)) h.symm
        simp [Bucket.insert, List.filter_cons, h1, h2, this]
      · simp [Bucket.insert, List.filter_cons, h1, h2, ih (Bucket.WF_tail hb)]

theorem Bucket.first_insert {key : Bytes} (value : Bytes) {b : Bucket}
    (hmin : ∀ e ∈ b, bytesLess e.1 key = false) :
    Bucket.First (Bucket.insert key value b) = (some key, some value) := by
  cases b with
  | nil => simp [Bucket.insert, Bucket.First]
  | cons e rest =>
    obtain ⟨k, v⟩ := e
    by_cases h1 : k = key
    · simp [Bucket.insert, Bucket.First, h1]
    · have h2 : bytesLess key k = true :=
        bytesLess_total h1 (hmin (k, v) (List.mem_cons_self _ _))
      simp [Bucket.insert, Bucket.First, h1, h2]

theorem Bucket.length_filter_ne {key value : Bytes} {b : Bucket} (hb : Bucket.WF b)
    (h : Bucket.Get b key = some value) :
    (b.filter (fun e => !decide (e.1 = key))).length + 1 = b.length := by
  induction b with
  | nil => simp [Bucket.Get] at h
  | cons e rest ih =>
    obtain ⟨k, v⟩ := e
    have hp := List.pairwise_cons.mp hb.1
    by_cases h1 : k = key
    · subst h1
      have : rest.filter (fun e => !decide (e.1 = k)) = rest := by
        rw [List.filter_eq_self]
        intro x hx
        simpa using fun h => bytesLess_ne (hp.1 x hx) h.symm
      simp [List.filter_cons, this]
    · simp only [Bucket.Get, h1, if_false] at h
      simp [List.filter_cons, h1, ih (Bucket.WF_tail hb) h]

/-! ## The storage engine -/

theorem Bucket.Put_storable (b : Bucket) {key value : Bytes} (h : Storable key value) :
    Bucket.Put b key value = .ok (Bucket.insert key value b) := by
  obtain ⟨h1, h2, h3⟩ := h
  have h0 : key.length ≠ 0 := fun hl => h1 (List.length_eq_zero.mp hl)
  simp only [Bucket.Put, h0, if_false, Nat.not_lt.mpr h2, Nat.not_lt.mpr h3]

theorem Bucket.Put_not_storable (b : Bucket) {key value : Bytes}
    (h : ¬ Storable key value) : ∃ err, Bucket.Put b key value = .error err := by
  unfold Bucket.Put
  by_cases h0 : key.length = 0
  · exact ⟨_, if_pos h0⟩
  · by_cases h2 : MaxKeySize < key.length
    · exact ⟨.keyTooLarge, by rw [if_neg h0, if_pos h2]⟩
    · by_cases h3 : MaxValueSize < value.length
      · exact ⟨.valueTooLarge, by rw [if_neg h0, if_neg h2, if_pos h3]⟩
      · exact absurd ⟨fun hk => h0 (by rw [hk]; rfl), Nat.not_lt.mp h2, Nat.not_lt.mp h3⟩ h

theorem Bucket.Put_keyTooLarge (b : Bucket) {key : Bytes} (value : Bytes)
    (h : MaxKeySize < key.length) : Bucket.Put b key value = .error .keyTooLarge := by
  have h0 : key.length ≠ 0 := by omega
  simp only [Bucket.Put, h0, if_false, h, if_true]

theorem Database.SetKey_readOnly {d : Database} (key value : Bytes)
    (hro : d.readOnly = true) : d.SetKey key value = (d, some .readOnlyMode) := by
  simp [Database.SetKey, hro]

theorem Database.SetKey_writable {d : Database} {key value : Bytes}
    (hro : d.readOnly = false) (h : Storable key value) :
    d.SetKey key value
      = ({ db := { defaultBucket := Bucket.insert key value d.db.defaultBucket,
                   replicaBucket := Bucket.insert key value d.db.replicaBucket },
           readOnly := d.readOnly }, none) := by
  simp [Database.SetKey, Database.Update, Bucket.Put_storable _ h, hro]

theorem Database.SetKey_rejected (d : Database) {key value : Bytes}
    (h : ¬ Storable key value) :
    (d.SetKey key value).1 = d ∧ (d.SetKey key value).2 ≠ none := by
  obtain ⟨err, herr⟩ := Bucket.Put_not_storable d.db.defaultBucket h
  cases hro : d.readOnly <;> simp [Database.SetKey, Database.Update, herr, hro]

theorem Database.SetKey_keyTooLarge {d : Database} {key : Bytes} (value : Bytes)
    (hro : d.readOnly = false) (h : MaxKeySize < key.length) :
    d.SetKey key value = (d, some .keyTooLarge) := by
  simp [Database.SetKey, Database.Update, Bucket.Put_keyTooLarge _ value h, hro]

theorem Database.SetKey_success {d : Database} {key value : Bytes}
    (h : (d.SetKey key value).2 = none) : d.readOnly = false ∧ Storable key value := by
  constructor
  · cases hro : d.readOnly with
    | false => rfl
    | true =>
      rw [Database.SetKey_readOnly key value hro] at h
      exact Option.noConfusion h
  · by_contra hst
    exact (Database.SetKey_rejected d hst).2 h

theorem Database.SetKeyOnReplica_eq (d : Database) {key value : Bytes}
    (h : Storable key value) :
    d.SetKeyOnReplica key value
      = ({ db := { defaultBucket := Bucket.insert key value d.db.defaultBucket,
                   replicaBucket := d.db.replicaBucket },
           readOnly := d.readOnly }, none) := by
  simp [Database.SetKeyOnReplica, Database.Update, Bucket.Put_storable _ h]

theorem Database.SetKeyOnReplica_rejected (d : Database) {key value : Bytes}
    (h : ¬ Storable key value) :
    (d.SetKeyOnReplica key value).1 = d ∧ (d.SetKeyOnReplica key value).2 ≠ none := by
  obtain ⟨err, herr⟩ := Bucket.Put_not_storable d.db.defaultBucket h
  simp [Database.SetKeyOnReplica, Database.Update, herr]

theorem Database.SetKeyOnReplica_keyTooLarge (d : Database) {key : Bytes} (value : Bytes)
    (h : MaxKeySize < key.length) :
    d.SetKeyOnReplica key value = (d, some .keyTooLarge) := by
  simp [Database.SetKeyOnReplica, Database.Update, Bucket.Put_keyTooLarge _ value h]

theorem Database.SetKeyOnReplica_replicaBucket (d : Database) (key value : Bytes) :
    (d.SetKeyOnReplica key value).1.db.replicaBucket = d.db.replicaBucket := by
  by_cases h : Storable key value
  · rw [Database.SetKeyOnReplica_eq d h]
  · rw [(Database.SetKeyOnReplica_rejected d h).1]

theorem Database.DeleteReplicationKey_absent {d : Database} {key : Bytes} (value : Bytes)
    (h : Bucket.Get d.db.replicaBucket key = none) :
    d.DeleteReplicationKey key value = (d, some .keyDoesNotExist) := by
  simp [Database.DeleteReplicationKey, Database.Update, h]

theorem Database.DeleteReplicationKey_stale {d : Database} {key value stored : Bytes}
    (h : Bucket.Get d.db.replicaBucket key = some stored) (hne : stored ≠ value) :
    d.DeleteReplicationKey key value = (d, some .valueDoesNotMatch) := by
  simp [Database.DeleteReplicationKey, Database.Update, h, hne]

theorem Database.DeleteReplicationKey_match {d : Database} {key value : Bytes}
    (h : Bucket.Get d.db.replicaBucket key = some value) :
    d.DeleteReplicationKey key value
      = ({ db := { defaultBucket := d.db.defaultBucket,
                   replicaBucket :=
                     d.db.replicaBucket.filter (fun e => !decide (e.1 = key)) },
           readOnly := d.readOnly }, none) := by
  simp [Database.DeleteReplicationKey, Database.Update, Bucket.Delete, h]

theorem Database.DeleteReplicationKey_defaultBucket (d : Database) (key value : Bytes) :
    (d.DeleteReplicationKey key value).1.db.defaultBucket = d.db.defaultBucket := by
  cases h : Bucket.Get d.db.replicaBucket key with
  | none => rw [Database.DeleteReplicationKey_absent value h]
  | some stored =>
    by_cases hv : stored = value
    · subst hv
      rw [Database.DeleteReplicationKey_match h]
    · rw [Database.DeleteReplicationKey_stale h hv]

theorem replicate_ne_nil (n : Nat) (x : Fin 256) : List.replicate (n + 1) x ≠ [] := by
  simp [List.replicate]

theorem replicate_tooLarge (x : Fin 256) : MaxKeySize < (List.replicate 32769 x).length := by
  rw [List.length_replicate]
  unfold MaxKeySize
  omega

/-- C1 as stated fails: on an empty writable store, `SetKey` with a non-empty key of
32769 bytes fails with "key too large" and stores nothing, so `GetKey` does not
return the value. -/
theorem C1_oversized_key_rejected :
    (NewDatabase false).WF ∧
    (NewDatabase false).readOnly = false ∧
    List.replicate 32769 (0 : Fin 256) ≠ [] ∧
    (NewDatabase false).SetKey (List.replicate 32769 0) (lit "v")
      = (NewDatabase false, some .keyTooLarge) ∧
    ((NewDatabase false).SetKey (List.replicate 32769 0) (lit "v")).1.GetKey
      (List.replicate 32769 0) = (none, none) := by
  have h : (NewDatabase false).SetKey (List.replicate 32769 0) (lit "v")
      = (NewDatabase false, some .keyTooLarge) :=
    Database.SetKey_keyTooLarge (lit "v") rfl (replicate_tooLarge 0)
  refine ⟨⟨Bucket.WF_nil, Bucket.WF_nil⟩, rfl, replicate_ne_nil 32768 0, h, ?_⟩
  rw [h]
  rfl

/-- C1, amended. For a non-empty key: on a read-only engine `SetKey` fails and
returns the store as it was. On a writable engine, when the key has at most
`MaxKeySize` bytes and the value at most `MaxValueSize` bytes, `SetKey` succeeds;
afterwards `GetKey` returns the value, the outbox has exactly one entry for the key
and it carries the value, and the entries of every other key are the same in both
buckets. A second `SetKey` on the same key, with a value within the limit, leaves
both `GetKey` and the single outbox entry at the second value. -/
theorem C1_SetKey_contract (d : Database) (k v : Bytes) (hwf : d.WF) (hk : k ≠ []) :
    (d.readOnly = true → d.SetKey k v = (d, some .readOnlyMode)) ∧
    (d.readOnly = false → k.length ≤ MaxKeySize → v.length ≤ MaxValueSize →
      (d.SetKey k v).2 = none ∧
      (d.SetKey k v).1.GetKey k = (some v, none) ∧
      (d.SetKey k v).1.db.replicaBucket.filter (fun e => decide (e.1 = k)) = [(k, v)] ∧
      (∀ other, other ≠ k →
        Bucket.Get (d.SetKey k v).1.db.defaultBucket other
          = Bucket.Get d.db.defaultBucket other ∧
        Bucket.Get (d.SetKey k v).1.db.replicaBucket other
          = Bucket.Get d.db.replicaBucket other) ∧
      (d.SetKey k v).1.db.defaultBucket.filter (fun e => !decide (e.1 = k))
        = d.db.defaultBucket.filter (fun e => !decide (e.1 = k)) ∧
      (d.SetKey k v).1.db.replicaBucket.filter (fun e => !decide (e.1 = k))
        = d.db.replicaBucket.filter (fun e => !decide (e.1 = k)) ∧
      (∀ v2, v2.length ≤ MaxValueSize →
        ((d.SetKey k v).1.SetKey k v2).2 = none ∧
        ((d.SetKey k v).1.SetKey k v2).1.GetKey k = (some v2, none) ∧
        ((d.SetKey k v).1.SetKey k v2).1.db.replicaBucket.filter
          (fun e => decide (e.1 = k)) = [(k, v2)])) := by
  refine ⟨fun hro => Database.SetKey_readOnly k v hro, fun hro hklen hvlen => ?_⟩
  have h1 := Database.SetKey_writable hro ⟨hk, hklen, hvlen⟩
  rw [h1]
  refine ⟨rfl, ?_, Bucket.filter_eq_insert v hwf.2, ?_, Bucket.filter_ne_insert k v _,
    Bucket.filter_ne_insert k v _, ?_⟩
  · simp [Database.GetKey, copyByteSlice, Bucket.get_insert_self]
  · intro other hne
    exact ⟨Bucket.get_insert_other v _ hne, Bucket.get_insert_other v _ hne⟩
  · intro v2 hv2len
    have h2 := @Database.SetKey_writable
      { db := { defaultBucket := Bucket.insert k v d.db.defaultBucket,
                replicaBucket := Bucket.insert k v d.db.replicaBucket },
        readOnly := d.readOnly } k v2 hro ⟨hk, hklen, hv2len⟩
    rw [h2]
    refine ⟨rfl, ?_, Bucket.filter_eq_insert v2 (Bucket.WF_insert v hwf.2 hk)⟩
    simp [Database.GetKey, copyByteSlice, Bucket.get_insert_self]

/-- An instance of C1, amended: a writable store holding keys "a" and "m", written at
"c". -/
theorem C1_SetKey_contract_witness :
    (⟨⟨[(lit "a", lit "1")], [(lit "m", lit "2")]⟩, false⟩ : Database).WF ∧
    lit "c" ≠ [] ∧ (lit "c").length ≤ MaxKeySize ∧ (lit "3").length ≤ MaxValueSize ∧
    (⟨⟨[(lit "a", lit "1")], [(lit "m", lit "2")]⟩, false⟩ : Database).readOnly = false ∧
    ((⟨⟨[(lit "a", lit "1")], [(lit "m", lit "2")]⟩, false⟩ : Database).SetKey
      (lit "c") (lit "3")).1.GetKey (lit "c") = (some (lit "3"), none) :=
  have hwf : (⟨⟨[(lit "a", lit "1")], [(lit "m", lit "2")]⟩, false⟩ : Database).WF := by
    decide
  ⟨hwf, by decide, by decide, by decide, rfl,
    ((C1_SetKey_contract ⟨⟨[(lit "a", lit "1")], [(lit "m", lit "2")]⟩, false⟩
      (lit "c") (lit "3") hwf (by decide)).2 rfl (by decide) (by decide)).2.1⟩

/-- C2. `DeleteReplicationKey` succeeds exactly when the outbox holds the key with
an equal value, and then the outbox loses the entries of that key and nothing
else (one entry, in a well-formed store). On a missing key it fails with "key does
not exist", on a different stored value with "value does not match", and returns
the store as it was. The data bucket is never changed. After a `SetKey k vnew` that
succeeded, an acknowledgment of another value fails with "value does not match" and
the outbox still holds `vnew` for the key. -/
theorem C2_DeleteReplicationKey_contract (d : Database) (k v : Bytes) :
    ((d.DeleteReplicationKey k v).2 = none ↔ Bucket.Get d.db.replicaBucket k = some v) ∧
    (Bucket.Get d.db.replicaBucket k = some v →
      (d.DeleteReplicationKey k v).1.db.replicaBucket
        = d.db.replicaBucket.filter (fun e => !decide (e.1 = k)) ∧
      (∀ e ∈ (d.DeleteReplicationKey k v).1.db.replicaBucket, e.1 ≠ k) ∧
      (d.WF → (d.DeleteReplicationKey k v).1.db.replicaBucket.length + 1
        = d.db.replicaBucket.length)) ∧
    (Bucket.Get d.db.replicaBucket k = none →
      d.DeleteReplicationKey k v = (d, some .keyDoesNotExist)) ∧
    (∀ stored, Bucket.Get d.db.replicaBucket k = some stored → stored ≠ v →
      d.DeleteReplicationKey k v = (d, some .valueDoesNotMatch)) ∧
    (d.DeleteReplicationKey k v).1.db.defaultBucket = d.db.defaultBucket ∧
    (∀ vold vnew, vold ≠ vnew → (d.SetKey k vnew).2 = none →
      (d.SetKey k vnew).1.DeleteReplicationKey k vold
        = ((d.SetKey k vnew).1, some .valueDoesNotMatch) ∧
      Bucket.Get (d.SetKey k vnew).1.db.replicaBucket k = some vnew) := by
  refine ⟨?_, ?_, fun h => Database.DeleteReplicationKey_absent v h,
    fun stored h hne => Database.DeleteReplicationKey_stale h hne,
    Database.DeleteReplicationKey_defaultBucket d k v, ?_⟩
  · cases h : Bucket.Get d.db.replicaBucket k with
    | none => simp [Database.DeleteReplicationKey_absent v h]
    | some stored =>
      by_cases hv : stored = v
      · subst hv
        simp [Database.DeleteReplicationKey_match h]
      · simp [Database.DeleteReplicationKey_stale h hv, hv]
  · intro h
    rw [Database.DeleteReplicationKey_match h]
    refine ⟨rfl, ?_, fun hwf => Bucket.length_filter_ne hwf.2 h⟩
    intro e he
    simpa using (List.mem_filter.mp he).2
  · intro vold vnew hne hok
    obtain ⟨hro, hst⟩ := Database.SetKey_success hok
    rw [Database.SetKey_writable hro hst]
    have hget : Bucket.Get (Bucket.insert k vnew d.db.replicaBucket) k = some vnew :=
      Bucket.get_insert_self k vnew _
    exact ⟨Database.DeleteReplicationKey_stale hget (fun h => hne h.symm), hget⟩

/-- An instance of C2: the value "1" is acknowledged after "2" was written. -/
theorem C2_DeleteReplicationKey_contract_witness :
    lit "1" ≠ lit "2" ∧
    ((NewDatabase false).SetKey (lit "x") (lit "2")).2 = none ∧
    ((NewDatabase false).SetKey (lit "x") (lit "2")).1.DeleteReplicationKey
        (lit "x") (lit "1")
      = (((NewDatabase false).SetKey (lit "x") (lit "2")).1, some .valueDoesNotMatch) :=
  ⟨by decide, by decide,
    ((C2_DeleteReplicationKey_contract (NewDatabase false) (lit "x") (lit "1")).2.2.2.2.2
      (lit "1") (lit "2") (by decide) (by decide)).1⟩

/-- C3 as stated fails: the primary is writable and empty and the key is not empty,
but it has 32769 bytes; `SetKey` fails with "key too large",
`GetNextKeyForReplication` returns no entry, and `SetKeyOnReplica` fails on the
replica too. -/
theorem C3_oversized_key_not_replicated :
    (NewDatabase false).readOnly = false ∧
    List.replicate 32769 (0 : Fin 256) ≠ [] ∧
    (∀ e ∈ (NewDatabase false).db.replicaBucket,
      bytesLess e.1 (List.replicate 32769 0) = false) ∧
    ((NewDatabase false).SetKey (List.replicate 32769 0) (lit "1")).2
      = some .keyTooLarge ∧
    ((NewDatabase false).SetKey (List.replicate 32769 0) (lit "1")).1.GetNextKeyForReplication
      = (none, none, none) ∧
    ((NewDatabase true).SetKeyOnReplica (List.replicate 32769 0) (lit "1")).2
      = some .keyTooLarge := by
  have hlen := replicate_tooLarge 0
  have h : (NewDatabase false).SetKey (List.replicate 32769 0) (lit "1")
      = (NewDatabase false, some .keyTooLarge) :=
    Database.SetKey_keyTooLarge (lit "1") rfl hlen
  refine ⟨rfl, replicate_ne_nil 32768 0, fun e he => ?_, by rw [h], by rw [h]; rfl, ?_⟩
  · exact absurd he (List.not_mem_nil e)
  · rw [Database.SetKeyOnReplica_keyTooLarge _ _ hlen]

/-- C3, amended. One replication round for a non-empty key `k` of at most
`MaxKeySize` bytes, no outbox key of the primary being smaller, and a value of at
most `MaxValueSize` bytes: after `SetKey k v` on the writable primary,
`GetNextKeyForReplication` returns `(k, v)`; `SetKeyOnReplica k v` on the replica
succeeds, makes `GetKey k` return `v` and leaves the outbox of the replica as it
was; `DeleteReplicationKey k v` on the primary then succeeds, its outbox has no
entry for `k` any more and its `GetKey k` still returns `v`. -/
theorem C3_replication_round (p r : Database) (k v : Bytes)
    (hp : p.readOnly = false) (hk : k ≠ [])
    (hklen : k.length ≤ MaxKeySize) (hvlen : v.length ≤ MaxValueSize)
    (hmin : ∀ e ∈ p.db.replicaBucket, bytesLess e.1 k = false) :
    (p.SetKey k v).2 = none ∧
    (p.SetKey k v).1.GetNextKeyForReplication = (some k, some v, none) ∧
    (r.SetKeyOnReplica k v).2 = none ∧
    (r.SetKeyOnReplica k v).1.GetKey k = (some v, none) ∧
    (r.SetKeyOnReplica k v).1.db.replicaBucket = r.db.replicaBucket ∧
    ((p.SetKey k v).1.DeleteReplicationKey k v).2 = none ∧
    (∀ e ∈ ((p.SetKey k v).1.DeleteReplicationKey k v).1.db.replicaBucket, e.1 ≠ k) ∧
    ((p.SetKey k v).1.DeleteReplicationKey k v).1.GetKey k = (some v, none) := by
  have hst : Storable k v := ⟨hk, hklen, hvlen⟩
  have h1 := Database.SetKey_writable hp hst
  have h2 := Database.SetKeyOnReplica_eq r hst
  have hget : Bucket.Get (p.SetKey k v).1.db.replicaBucket k = some v := by
    rw [h1]; exact Bucket.get_insert_self k v _
  have h3 := Database.DeleteReplicationKey_match hget
  have hnext : (p.SetKey k v).1.GetNextKeyForReplication = (some k, some v, none) := by
    rw [h1]
    simp [Database.GetNextKeyForReplication, Bucket.first_insert v hmin, copyByteSlice]
  refine ⟨by rw [h1], hnext, by rw [h2], ?_, by rw [h2], by rw [h3], ?_, ?_⟩
  · rw [h2]
    simp [Database.GetKey, copyByteSlice, Bucket.get_insert_self]
  · rw [h3]
    intro e he
    simpa using (List.mem_filter.mp he).2
  · rw [h3, h1]
    simp [Database.GetKey, copyByteSlice, Bucket.get_insert_self]

/-- An instance of C3, amended: the scenario Put("x","1") on an empty primary,
replicated to an empty read-only replica. -/
theorem C3_replication_round_witness :
    (NewDatabase false).readOnly = false ∧ lit "x" ≠ [] ∧
    (lit "x").length ≤ MaxKeySize ∧ (lit "1").length ≤ MaxValueSize ∧
    ((NewDatabase false).SetKey (lit "x") (lit "1")).1.GetNextKeyForReplication
      = (some (lit "x"), some (lit "1"), none) ∧
    ((NewDatabase true).SetKeyOnReplica (lit "x") (lit "1")).1.GetKey (lit "x")
      = (some (lit "1"), none) :=
  have h := C3_replication_round (NewDatabase false) (NewDatabase true) (lit "x") (lit "1")
    rfl (by decide) (by decide) (by decide) (by decide)
  ⟨rfl, by decide, by decide, by decide, h.2.1, h.2.2.2.1⟩

/-! ## Purging -/

theorem collectExtraKeys_total (p : Bytes → Bool) (b : Bucket) :
    collectExtraKeys (fun k => some (p k)) b
      = some ((b.filter (fun e => p e.1)).map Prod.fst) := by
  induction b with
  | nil => rfl
  | cons e rest ih =>
    obtain ⟨k, v⟩ := e
    cases hp : p k <;> simp [collectExtraKeys, ih, List.filter_cons, hp]

theorem deleteKeys_eq (keys : List Bytes) (b : Bucket) :
    deleteKeys keys b = .ok (b.filter (fun e => !decide (e.1 ∈ keys))) := by
  induction keys generalizing b with
  | nil => simp [deleteKeys]
  | cons k keys ih =>
    simp only [deleteKeys, Bucket.Delete, ih, List.filter_filter]
    congr 1
    apply List.filter_congr
    intro e _
    by_cases h1 : e.1 = k <;> simp [h1]

theorem Database.DeleteExtraKeys_total (d : Database) (p : Bytes → Bool) :
    d.DeleteExtraKeys (fun k => some (p k))
      = some ({ db := { defaultBucket := d.db.defaultBucket.filter (fun e => !p e.1),
                        replicaBucket := d.db.replicaBucket },
                readOnly := d.readOnly }, none) := by
  have hfilter : d.db.defaultBucket.filter
      (fun e => !decide (e.1 ∈ (d.db.defaultBucket.filter (fun e => p e.1)).map Prod.fst))
      = d.db.defaultBucket.filter (fun e => !p e.1) := by
    apply List.filter_congr
    intro e he
    cases hp : p e.1 with
    | true =>
      have : e.1 ∈ (d.db.defaultBucket.filter (fun e => p e.1)).map Prod.fst :=
        List.mem_map.mpr ⟨e, List.mem_filter.mpr ⟨he, hp⟩, rfl⟩
      simp [this]
    | false =>
      have : ¬ e.1 ∈ (d.db.defaultBucket.filter (fun e => p e.1)).map Prod.fst := by
        intro hmem
        obtain ⟨x, hx, hxe⟩ := List.mem_map.mp hmem
        have hpx := (List.mem_filter.mp hx).2
        rw [hxe, hp] at hpx
        exact Bool.noConfusion hpx
      simp [this]
  simp only [Database.DeleteExtraKeys, collectExtraKeys_total, deleteKeys_eq,
    Database.Update, hfilter]

/-! ## Histories -/

theorem Bucket.mem_iff_get {b : Bucket} (hb : Bucket.WF b) (key value : Bytes) :
    (key, value) ∈ b ↔ Bucket.Get b key = some value := by
  refine ⟨fun h => ?_, Bucket.mem_of_get⟩
  induction b with
  | nil => simp at h
  | cons e rest ih =>
    obtain ⟨k, w⟩ := e
    have hp := List.pairwise_cons.mp hb.1
    rcases List.mem_cons.mp h with h1 | h1
    · simp only [Prod.mk.injEq] at h1
      simp [Bucket.Get, h1.1, h1.2]
    · have hne : k ≠ key := bytesLess_ne (hp.1 _ h1)
      simp [Bucket.Get, hne, ih (Bucket.WF_tail hb) h1]

theorem Database.apply_WF {d : Database} (hd : d.WF) (op : Op) : (d.apply op).1.WF := by
  cases op with
  | Put key value =>
    rw [show d.apply (.Put key value) = d.SetKey key value from rfl]
    by_cases hst : Storable key value
    · cases hro : d.readOnly with
      | true =>
        rw [Database.SetKey_readOnly key value hro]
        exact hd
      | false =>
        rw [Database.SetKey_writable hro hst]
        exact ⟨Bucket.WF_insert value hd.1 hst.1, Bucket.WF_insert value hd.2 hst.1⟩
    · rw [(Database.SetKey_rejected d hst).1]
      exact hd
  | PutLocalOnly key value =>
    rw [show d.apply (.PutLocalOnly key value) = d.SetKeyOnReplica key value from rfl]
    by_cases hst : Storable key value
    · rw [Database.SetKeyOnReplica_eq d hst]
      exact ⟨Bucket.WF_insert value hd.1 hst.1, hd.2⟩
    · rw [(Database.SetKeyOnReplica_rejected d hst).1]
      exact hd
  | AckOutboxEntry key value =>
    rw [show d.apply (.AckOutboxEntry key value) = d.DeleteReplicationKey key value
      from rfl]
    cases h : Bucket.Get d.db.replicaBucket key with
    | none => rw [Database.DeleteReplicationKey_absent value h]; exact hd
    | some stored =>
      by_cases hv : stored = value
      · subst hv
        rw [Database.DeleteReplicationKey_match h]
        exact ⟨hd.1, Bucket.WF_filter _ hd.2⟩
      · rw [Database.DeleteReplicationKey_stale h hv]; exact hd
  | PurgeNonOwnedKeys isExtra =>
    simp only [Database.apply, Database.DeleteExtraKeys_total]
    exact ⟨Bucket.WF_filter _ hd.1, hd.2⟩

theorem Database.run_WF {d : Database} (hd : d.WF) (ops : List Op) : (d.run ops).WF := by
  induction ops generalizing d with
  | nil => exact hd
  | cons op ops ih => exact ih (Database.apply_WF hd op)

theorem Database.apply_pending (d : Database) (op : Op) (key : Bytes) :
    Bucket.Get (d.apply op).1.db.replicaBucket key
      = pendingAfter key (Bucket.Get d.db.replicaBucket key)
          (op, (d.apply op).2.isNone) := by
  cases op with
  | Put k v =>
    by_cases hst : Storable k v
    · cases hro : d.readOnly with
      | true => simp [Database.apply, Database.SetKey_readOnly k v hro, pendingAfter]
      | false =>
        simp only [Database.apply, Database.SetKey_writable hro hst, Option.isNone_none,
          pendingAfter]
        by_cases hkk : k = key
        · subst hkk
          simp [Bucket.get_insert_self]
        · simp [hkk, Bucket.get_insert_other v _ (fun h => hkk h.symm)]
    · have h := Database.SetKey_rejected d hst
      have h2 : (d.SetKey k v).2.isNone = false := by
        cases hx : (d.SetKey k v).2 with
        | none => exact absurd hx h.2
        | some _ => rfl
      simp only [Database.apply, h.1, h2, pendingAfter]
  | PutLocalOnly k v =>
    simp only [Database.apply, Database.SetKeyOnReplica_replicaBucket, pendingAfter]
  | AckOutboxEntry k v =>
    simp only [Database.apply]
    cases h : Bucket.Get d.db.replicaBucket k with
    | none => simp [Database.DeleteReplicationKey_absent v h, pendingAfter]
    | some stored =>
      by_cases hv : stored = v
      · subst hv
        simp only [Database.DeleteReplicationKey_match h, Option.isNone_none, pendingAfter]
        by_cases hkk : k = key
        · subst hkk
          simp [Bucket.get_filter_self]
        · simp [hkk, Bucket.get_filter_other _ (fun h => hkk h.symm)]
      · simp [Database.DeleteReplicationKey_stale h hv, pendingAfter]
  | PurgeNonOwnedKeys isExtra =>
    simp only [Database.apply, Database.DeleteExtraKeys_total, pendingAfter]

theorem Database.run_pending (d : Database) (ops : List Op) (key : Bytes) :
    Bucket.Get (d.run ops).db.replicaBucket key
      = (d.trace ops).foldl (pendingAfter key) (Bucket.Get d.db.replicaBucket key) := by
  induction ops generalizing d with
  | nil => rfl
  | cons op ops ih =>
    simp only [Database.run, Database.trace, List.foldl_cons, ih, Database.apply_pending]

theorem pendingAfter_eq_some (key value : Bytes) (acc : Option Bytes) (e : Op × Bool) :
    pendingAfter key acc e = some value ↔
      e = (Op.Put key value, true) ∨
        (acc = some value ∧ isPutOn key e = false ∧ isAckOn key e = false) := by
  obtain ⟨op, ok⟩ := e
  cases ok with
  | false => cases op <;> simp [pendingAfter, isPutOn, isAckOn]
  | true =>
    cases op with
    | Put k v =>
      by_cases hk : k = key
      · simp [pendingAfter, isPutOn, isAckOn, hk]
      · simp [pendingAfter, isPutOn, isAckOn, hk]
    | PutLocalOnly k v => simp [pendingAfter, isPutOn, isAckOn]
    | AckOutboxEntry k v =>
      by_cases hk : k = key
      · simp [pendingAfter, isPutOn, isAckOn, hk]
      · simp [pendingAfter, isPutOn, isAckOn, hk]
    | PurgeNonOwnedKeys f => simp [pendingAfter, isPutOn, isAckOn]

theorem foldl_pendingAfter_eq_some (key value : Bytes) (tr : List (Op × Bool))
    (acc : Option Bytes) :
    tr.foldl (pendingAfter key) acc = some value ↔
      (∃ pre post, tr = pre ++ (Op.Put key value, true) :: post ∧
        ∀ e ∈ post, isPutOn key e = false ∧ isAckOn key e = false) ∨
      (acc = some value ∧ ∀ e ∈ tr, isPutOn key e = false ∧ isAckOn key e = false) := by
  induction tr generalizing acc with
  | nil => simp
  | cons e tr ih =>
    rw [List.foldl_cons, ih, pendingAfter_eq_some]
    constructor
    · rintro (⟨pre, post, h1, h2⟩ | ⟨h1 | ⟨h1, h3, h4⟩, h2⟩)
      · exact Or.inl ⟨e :: pre, post, by rw [h1]; rfl, h2⟩
      · exact Or.inl ⟨[], tr, by rw [h1]; rfl, h2⟩
      · refine Or.inr ⟨h1, ?_⟩
        intro x hx
        rcases List.mem_cons.mp hx with hx | hx
        · rw [hx]; exact ⟨h3, h4⟩
        · exact h2 x hx
    · rintro (⟨pre, post, h1, h2⟩ | ⟨h1, h2⟩)
      · cases pre with
        | nil =>
          simp only [List.nil_append, List.cons.injEq] at h1
          rw [← h1.2] at h2
          exact Or.inr ⟨Or.inl h1.1, h2⟩
        | cons x pre =>
          simp only [List.cons_append, List.cons.injEq] at h1
          exact Or.inl ⟨pre, post, h1.2, h2⟩
      · exact Or.inr ⟨Or.inr ⟨h1, h2 e (List.mem_cons_self _ _)⟩,
          fun x hx => h2 x (List.mem_cons_of_mem _ hx)⟩

/-- C8. In the store reached from an empty one by any sequence of `Put`,
`PutLocalOnly`, `AckOutboxEntry` and `PurgeNonOwnedKeys` calls, the outbox holds the
entry `(key, value)` exactly when the sequence has a successful `Put key value`
after which no `Put` on `key` and no `AckOutboxEntry` on `key` succeeded. -/
theorem C8_outbox_history (readOnly : Bool) (ops : List Op) (key value : Bytes) :
    (key, value) ∈ ((NewDatabase readOnly).run ops).db.replicaBucket ↔
      ∃ pre post,
        (NewDatabase readOnly).trace ops = pre ++ (Op.Put key value, true) :: post ∧
        ∀ e ∈ post, isPutOn key e = false ∧ isAckOn key e = false := by
  have hwf : (NewDatabase readOnly).WF := ⟨Bucket.WF_nil, Bucket.WF_nil⟩
  rw [Bucket.mem_iff_get (Database.run_WF hwf ops).2, Database.run_pending,
    foldl_pendingAfter_eq_some]
  simp [NewDatabase, Bucket.Get]

/-! ## The shard table -/

theorem AddrMap.get_set_self (m : AddrMap) (k : Int) (v : Bytes) :
    AddrMap.get (m.set k v) k = some v := by
  simp [AddrMap.set, AddrMap.get]

theorem AddrMap.get_filter_of_ne (m : AddrMap) {k other : Int} (hne : other ≠ k) :
    AddrMap.get (m.filter (fun e => !decide (e.1 = k))) other = AddrMap.get m other := by
  induction m with
  | nil => rfl
  | cons e rest ih =>
    obtain ⟨i, a⟩ := e
    by_cases h1 : i = k
    · subst h1
      have : ¬ i = other := fun h => hne h.symm
      simp [List.filter_cons, AddrMap.get, this, ih]
    · simp [List.filter_cons, h1, AddrMap.get, ih]

theorem AddrMap.get_set_other (m : AddrMap) {k other : Int} (v : Bytes) (hne : other ≠ k) :
    AddrMap.get (m.set k v) other = AddrMap.get m other := by
  have : ¬ k = other := fun h => hne h.symm
  simp only [AddrMap.set, AddrMap.get, this, if_false]
  exact AddrMap.get_filter_of_ne m hne

/-- What a successful run of the first loop of `ParseShards` established. -/
theorem parseEntries_ok (name : Bytes) (shards : List Shard) (addrs0 : AddrMap)
    (idx0 : Int) (addrs : AddrMap) (idx : Int)
    (h : parseEntries name shards addrs0 idx0 = .ok (addrs, idx)) :
    (shards.map Shard.Idx).Nodup ∧
    (∀ s ∈ shards, AddrMap.get addrs0 s.Idx = none) ∧
    (∀ s ∈ shards, AddrMap.get addrs s.Idx = some s.Address) ∧
    (∀ i, (∀ s ∈ shards, s.Idx ≠ i) → AddrMap.get addrs i = AddrMap.get addrs0 i) ∧
    ((idx = idx0 ∧ ∀ s ∈ shards, s.Name ≠ name) ∨
      ∃ pre s post, shards = pre ++ s :: post ∧ s.Name = name ∧
        (∀ x ∈ post, x.Name ≠ name) ∧ idx = s.Idx) := by
  induction shards generalizing addrs0 idx0 with
  | nil =>
    simp only [parseEntries, Except.ok.injEq, Prod.mk.injEq] at h
    simp [h.1, h.2]
  | cons s rest ih =>
    cases hget : AddrMap.get addrs0 s.Idx with
    | some a => simp [parseEntries, hget] at h
    | none =>
      simp only [parseEntries, hget, Option.isSome_none, Bool.false_eq_true, if_false] at h
      obtain ⟨hnd, hfresh, hall, hframe, hidx⟩ := ih _ _ h
      have hnot : ∀ t ∈ rest, t.Idx ≠ s.Idx := by
        intro t ht heq
        have h1 := hfresh t ht
        rw [heq, AddrMap.get_set_self] at h1
        exact Option.noConfusion h1
      refine ⟨?_, ?_, ?_, ?_, ?_⟩
      · rw [List.map_cons, List.nodup_cons]
        refine ⟨?_, hnd⟩
        intro hmem
        obtain ⟨t, ht, hte⟩ := List.mem_map.mp hmem
        exact hnot t ht hte
      · intro t ht
        rcases List.mem_cons.mp ht with h1 | h1
        · rw [h1]; exact hget
        · have h2 := hfresh t h1
          rwa [AddrMap.get_set_other _ _ (hnot t h1)] at h2
      · intro t ht
        rcases List.mem_cons.mp ht with h1 | h1
        · rw [h1, hframe s.Idx (fun t ht => hnot t ht), AddrMap.get_set_self]
        · exact hall t h1
      · intro i hi
        rw [hframe i (fun t ht => hi t (List.mem_cons_of_mem _ ht)),
          AddrMap.get_set_other _ _ (fun h => hi s (List.mem_cons_self _ _) h.symm)]
      · rcases hidx with ⟨h1, h2⟩ | ⟨pre, t, post, h1, h2, h3, h4⟩
        · by_cases hn : s.Name = name
          · refine Or.inr ⟨[], s, rest, rfl, hn, h2, ?_⟩
            rw [h1, if_pos hn]
          · refine Or.inl ⟨by rw [h1, if_neg hn], ?_⟩
            intro t ht
            rcases List.mem_cons.mp ht with h3 | h3
            · rw [h3]; exact hn
            · exact h2 t h3
        · exact Or.inr ⟨s :: pre, t, post, by rw [h1]; rfl, h2, h3, h4⟩

/-- The first loop of `ParseShards` succeeds on distinct indices the map does not
hold yet. -/
theorem parseEntries_succeeds (name : Bytes) (shards : List Shard) (addrs0 : AddrMap)
    (idx0 : Int) (hnd : (shards.map Shard.Idx).Nodup)
    (hfresh : ∀ s ∈ shards, AddrMap.get addrs0 s.Idx = none) :
    ∃ res, parseEntries name shards addrs0 idx0 = .ok res := by
  induction shards generalizing addrs0 idx0 with
  | nil => exact ⟨_, rfl⟩
  | cons s rest ih =>
    rw [List.map_cons, List.nodup_cons] at hnd
    simp only [parseEntries, hfresh s (List.mem_cons_self _ _), Option.isSome_none,
      Bool.false_eq_true, if_false]
    apply ih _ _ hnd.2
    intro t ht
    have hne : t.Idx ≠ s.Idx := fun h => hnd.1 (List.mem_map.mpr ⟨t, ht, h⟩)
    rw [AddrMap.get_set_other _ _ hne]
    exact hfresh t (List.mem_cons_of_mem _ ht)

theorem firstMissing_eq_none (addrs : AddrMap) (n : Nat) :
    firstMissing addrs n = none ↔ ∀ i : Nat, i < n → (AddrMap.get addrs (i : Int)).isSome := by
  simp [firstMissing, List.find?_eq_none, Option.isSome_iff_ne_none]

theorem nodup_range_cast (n : Nat) : ((List.range n).map (fun i : Nat => (i : Int))).Nodup :=
  (List.nodup_range n).map (fun _ _ h => Int.ofNat.inj h)

theorem mem_range_cast (n : Nat) (x : Int) :
    x ∈ (List.range n).map (fun i : Nat => (i : Int)) ↔ 0 ≤ x ∧ x < n := by
  constructor
  · intro h
    obtain ⟨i, hi, hx⟩ := List.mem_map.mp h
    have := List.mem_range.mp hi
    omega
  · intro h
    refine List.mem_map.mpr ⟨x.toNat, List.mem_range.mpr (by omega), by omega⟩

/-- Distinct integers, as many as there are numbers below `n` and covering them all,
are all below `n`. -/
theorem bounded_of_covering (l : List Int)
    (hcover : ∀ i : Nat, i < l.length → (i : Int) ∈ l) :
    ∀ x ∈ l, 0 ≤ x ∧ x < l.length := by
  have hsub : (List.range l.length).map (fun i : Nat => (i : Int)) ⊆ l := by
    intro x hx
    obtain ⟨i, hi, hxi⟩ := List.mem_map.mp hx
    rw [← hxi]
    exact hcover i (List.mem_range.mp hi)
  have hperm := (List.subperm_of_subset (nodup_range_cast l.length) hsub).perm_of_length_le
    (by simp)
  intro x hx
  exact (mem_range_cast l.length x).mp (hperm.mem_iff.mpr hx)

/-- Distinct integers below `n`, as many as there are numbers below `n`, cover them
all. -/
theorem covering_of_bounded (l : List Int) (hnd : l.Nodup)
    (hbound : ∀ x ∈ l, 0 ≤ x ∧ x < l.length) :
    ∀ i : Nat, i < l.length → (i : Int) ∈ l := by
  have hsub : l ⊆ (List.range l.length).map (fun i : Nat => (i : Int)) :=
    fun x hx => (mem_range_cast l.length x).mpr (hbound x hx)
  have hperm := (List.subperm_of_subset hnd hsub).perm_of_length_le (by simp)
  intro i hi
  exact hperm.mem_iff.mpr ((mem_range_cast l.length i).mpr ⟨by omega, by omega⟩)

/-- The parts of a successful `ParseShards`. -/
theorem ParseShards_ok {shards : List Shard} {name : Bytes} {t : Shards}
    (h : ParseShards shards name = .ok t) :
    ∃ addrs idx, parseEntries name shards [] (-1) = .ok (addrs, idx) ∧
      firstMissing addrs shards.length = none ∧ 0 ≤ idx ∧
      t = { Addrs := addrs, Count := shards.length, CurIdx := idx } := by
  unfold ParseShards at h
  cases hp : parseEntries name shards [] (-1) with
  | error e => simp [hp] at h
  | ok res =>
    obtain ⟨addrs, idx⟩ := res
    cases hm : firstMissing addrs shards.length with
    | some i => simp [hp, hm] at h
    | none =>
      by_cases hneg : idx < 0
      · simp [hp, hm, hneg] at h
      · simp only [hp, hm, hneg, if_false, Except.ok.injEq] at h
        exact ⟨addrs, idx, rfl, hm, by omega, h.symm⟩

/-- Everything a successful `ParseShards` guarantees about its table. -/
theorem ParseShards_table {shards : List Shard} {name : Bytes} {t : Shards}
    (h : ParseShards shards name = .ok t) :
    t.Count = shards.length ∧
    (shards.map Shard.Idx).Nodup ∧
    (∀ i : Int, i ∈ shards.map Shard.Idx ↔ 0 ≤ i ∧ i < t.Count) ∧
    (∀ i : Int, (AddrMap.get t.Addrs i).isSome ↔ 0 ≤ i ∧ i < t.Count) ∧
    (∀ s ∈ shards, AddrMap.get t.Addrs s.Idx = some s.Address) ∧
    0 ≤ t.CurIdx ∧ t.CurIdx < t.Count ∧
    (∃ pre s post, shards = pre ++ s :: post ∧ s.Name = name ∧
      (∀ x ∈ post, x.Name ≠ name) ∧ t.CurIdx = s.Idx) := by
  obtain ⟨addrs, idx, hp, hm, hidx, ht⟩ := ParseShards_ok h
  obtain ⟨hnd, -, hall, hframe, hlast⟩ := parseEntries_ok name shards [] (-1) addrs idx hp
  rw [firstMissing_eq_none] at hm
  have hsome : ∀ i : Int, (AddrMap.get addrs i).isSome ↔ i ∈ shards.map Shard.Idx := by
    intro i
    constructor
    · intro hi
      by_contra hni
      have := hframe i (fun s hs heq => hni (List.mem_map.mpr ⟨s, hs, heq⟩))
      rw [this] at hi
      simp [AddrMap.get] at hi
    · intro hi
      obtain ⟨s, hs, hsi⟩ := List.mem_map.mp hi
      rw [← hsi, hall s hs]
      rfl
  have hcover : ∀ i : Nat, i < (shards.map Shard.Idx).length →
      (i : Int) ∈ shards.map Shard.Idx := by
    intro i hi
    rw [List.length_map] at hi
    exact (hsome i).mp (hm i hi)
  have hbound := bounded_of_covering _ hcover
  rw [List.length_map] at hbound
  have hmem : ∀ i : Int, i ∈ shards.map Shard.Idx ↔ 0 ≤ i ∧ i < (shards.length : Int) := by
    intro i
    refine ⟨hbound i, fun hi => ?_⟩
    have := hcover i.toNat (by rw [List.length_map]; omega)
    rwa [Int.toNat_of_nonneg hi.1] at this
  have hcur : ∃ pre s post, shards = pre ++ s :: post ∧ s.Name = name ∧
      (∀ x ∈ post, x.Name ≠ name) ∧ idx = s.Idx := by
    rcases hlast with ⟨h1, -⟩ | h1
    · omega
    · exact h1
  subst ht
  refine ⟨rfl, hnd, hmem, fun i => (hsome i).trans (hmem i), hall, hidx, ?_, hcur⟩
  obtain ⟨pre, s, post, hsh, -, -, hs⟩ := hcur
  have hsmem : s ∈ shards := by rw [hsh]; simp
  have := hbound s.Idx (List.mem_map.mpr ⟨s, hsmem, rfl⟩)
  show idx < (shards.length : Int)
  omega

theorem uint64_of_nat {n : Nat} (hn : n < 2 ^ 63) : uint64 (n : Int) = n := by
  have h63 : (2 : Nat) ^ 63 = 9223372036854775808 := by norm_num
  have h64 : (2 : Int) ^ 64 = 18446744073709551616 := by norm_num
  rw [h63] at hn
  unfold uint64
  rw [h64]
  omega

theorem int_of_small {n : Nat} (hn : n < 2 ^ 63) : int n = (n : Int) := by
  unfold int
  rw [if_pos hn]

/-- The value of `Index` on a table whose count is a positive Go `int`. -/
theorem Shards.Index_eq (t : Shards) (key : Bytes) {n : Nat} (hcount : t.Count = (n : Int))
    (hpos : 0 < n) (hn : n < 2 ^ 63) :
    t.Index key = some ((Sum64 key % n : Nat) : Int) := by
  have hlt : Sum64 key % n < 2 ^ 63 := lt_trans (Nat.mod_lt _ hpos) hn
  have hne : n ≠ 0 := by omega
  simp only [Shards.Index, hcount, uint64_of_nat hn, hne, if_false, int_of_small hlt]

/-- On a table `ParseShards` returned for a slice whose length is a Go `int`, `Index`
returns an index of the range that has an address. -/
theorem ParseShards_Index {shards : List Shard} {selfName : Bytes} {t : Shards}
    (hlen : shards.length < 2 ^ 63) (h : ParseShards shards selfName = .ok t) :
    1 ≤ t.Count ∧
    ∀ key, ∃ i, t.Index key = some i ∧ 0 ≤ i ∧ i < t.Count ∧
      (AddrMap.get t.Addrs i).isSome ∧
      ∀ t2 : Shards, t2.Count = t.Count → t2.Index key = some i := by
  obtain ⟨hcount, -, -, hsome, -, hcur0, hcur1, -⟩ := ParseShards_table h
  have hpos : 0 < shards.length := by omega
  refine ⟨by omega, fun key => ?_⟩
  have hmod := Nat.mod_lt (Sum64 key) hpos
  have hrange : (0 : Int) ≤ ((Sum64 key % shards.length : Nat) : Int) ∧
      ((Sum64 key % shards.length : Nat) : Int) < t.Count := by
    rw [hcount]
    omega
  exact ⟨_, Shards.Index_eq t key hcount hpos hlen, hrange.1, hrange.2,
    (hsome _).mpr hrange,
    fun t2 h2 => Shards.Index_eq t2 key (h2.trans hcount) hpos hlen⟩

/-- C4. On a table `ParseShards` returned, for a slice of shards whose length is a Go
`int`, the count is at least 1 and `Index` does not divide by zero: for every key it
returns an index in `[0, Count)` that has an address in `Addrs`, and the index
depends on nothing but the key and the count. -/
theorem C4_Index_in_range (shards : List Shard) (selfName : Bytes) (t : Shards)
    (hlen : shards.length < 2 ^ 63) (h : ParseShards shards selfName = .ok t) :
    1 ≤ t.Count ∧
    ∀ key, ∃ i, t.Index key = some i ∧ 0 ≤ i ∧ i < t.Count ∧
      (AddrMap.get t.Addrs i).isSome ∧
      ∀ t2 : Shards, t2.Count = t.Count → t2.Index key = some i :=
  ParseShards_Index hlen h

/-- An instance of C4: the table of the shards "A" at 0 and "B" at 1. -/
theorem C4_Index_in_range_witness :
    ParseShards [⟨lit "A", 0, lit "a:1"⟩, ⟨lit "B", 1, lit "b:1"⟩] (lit "A")
      = .ok ⟨2, 0, [(1, lit "b:1"), (0, lit "a:1")]⟩ ∧
    ∃ i, (⟨2, 0, [(1, lit "b:1"), (0, lit "a:1")]⟩ : Shards).Index (lit "foo") = some i ∧
      0 ≤ i ∧ i < 2 :=
  ⟨rfl,
    match (C4_Index_in_range [⟨lit "A", 0, lit "a:1"⟩, ⟨lit "B", 1, lit "b:1"⟩] (lit "A")
      ⟨2, 0, [(1, lit "b:1"), (0, lit "a:1")]⟩ (by decide) rfl).2 (lit "foo") with
    | ⟨i, h1, h2, h3, _⟩ => ⟨i, h1, h2, h3⟩⟩

/-- C5. When `ParseShards` succeeds, `Count` is the number of entries, the indices of
the entries are pairwise distinct and are exactly the integers of `[0, Count)`,
`Addrs` has an address for exactly these integers, the one of the entry with that
index, and `CurIdx` lies in `[0, Count)` and is the index of an entry named
`selfName`. So `ParseShards` fails when two entries share an index, when an index is
negative or not below the number of entries, and when an integer of the range is
the index of no entry. -/
theorem C5_ParseShards_contract (shards : List Shard) (selfName : Bytes) :
    (∀ t, ParseShards shards selfName = .ok t →
      t.Count = shards.length ∧
      (shards.map Shard.Idx).Nodup ∧
      (∀ i : Int, i ∈ shards.map Shard.Idx ↔ 0 ≤ i ∧ i < t.Count) ∧
      (∀ i : Int, (AddrMap.get t.Addrs i).isSome ↔ 0 ≤ i ∧ i < t.Count) ∧
      (∀ s ∈ shards, AddrMap.get t.Addrs s.Idx = some s.Address) ∧
      0 ≤ t.CurIdx ∧ t.CurIdx < t.Count ∧
      ∃ s ∈ shards, s.Name = selfName ∧ s.Idx = t.CurIdx) ∧
    ((¬ (shards.map Shard.Idx).Nodup ∨
      (∃ s ∈ shards, s.Idx < 0 ∨ (shards.length : Int) ≤ s.Idx) ∨
      (∃ i : Int, 0 ≤ i ∧ i < shards.length ∧ i ∉ shards.map Shard.Idx)) →
      ∃ err, ParseShards shards selfName = .error err) := by
  have hok : ∀ t, ParseShards shards selfName = .ok t →
      t.Count = shards.length ∧
      (shards.map Shard.Idx).Nodup ∧
      (∀ i : Int, i ∈ shards.map Shard.Idx ↔ 0 ≤ i ∧ i < t.Count) ∧
      (∀ i : Int, (AddrMap.get t.Addrs i).isSome ↔ 0 ≤ i ∧ i < t.Count) ∧
      (∀ s ∈ shards, AddrMap.get t.Addrs s.Idx = some s.Address) ∧
      0 ≤ t.CurIdx ∧ t.CurIdx < t.Count ∧
      ∃ s ∈ shards, s.Name = selfName ∧ s.Idx = t.CurIdx := by
    intro t h
    obtain ⟨h1, h2, h3, h4, h5, h6, h7, pre, s, post, h8, h9, -, h10⟩ := ParseShards_table h
    exact ⟨h1, h2, h3, h4, h5, h6, h7, s, by rw [h8]; simp, h9, h10.symm⟩
  refine ⟨hok, fun hbad => ?_⟩
  cases hres : ParseShards shards selfName with
  | error err => exact ⟨err, rfl⟩
  | ok t =>
    exfalso
    obtain ⟨h1, h2, h3, -⟩ := hok t hres
    rcases hbad with hb | ⟨s, hs, hb⟩ | ⟨i, hi0, hi1, hb⟩
    · exact hb h2
    · have := (h3 s.Idx).mp (List.mem_map.mpr ⟨s, hs, rfl⟩)
      omega
    · exact hb ((h3 i).mpr ⟨hi0, by omega⟩)

/-- An instance of C5: a table of two shards, and a list with a gap at 1. -/
theorem C5_ParseShards_contract_witness :
    (∃ s ∈ ([⟨lit "A", 0, lit "a:1"⟩, ⟨lit "B", 1, lit "b:1"⟩] : List Shard),
      s.Name = lit "B" ∧ s.Idx = 1) ∧
    ∃ err, ParseShards [⟨lit "A", 0, lit "a:1"⟩, ⟨lit "B", 2, lit "b:1"⟩] (lit "A")
      = .error err :=
  ⟨((C5_ParseShards_contract [⟨lit "A", 0, lit "a:1"⟩, ⟨lit "B", 1, lit "b:1"⟩]
      (lit "B")).1 ⟨2, 1, [(1, lit "b:1"), (0, lit "a:1")]⟩ rfl).2.2.2.2.2.2.2,
    (C5_ParseShards_contract [⟨lit "A", 0, lit "a:1"⟩, ⟨lit "B", 2, lit "b:1"⟩]
      (lit "A")).2 (Or.inr (Or.inl ⟨⟨lit "B", 2, lit "b:1"⟩, by simp, Or.inr (by simp)⟩))⟩

/-- C6 as stated fails: two entries are named "A", their indices are 0 and 1, and
`ParseShards` succeeds, with the index of the second one as `CurIdx`. -/
theorem C6_two_entries_named_self :
    (([⟨lit "A", 0, lit "a:1"⟩, ⟨lit "A", 1, lit "b:1"⟩] : List Shard).filter
      (fun s => decide (s.Name = lit "A"))).length = 2 ∧
    ParseShards [⟨lit "A", 0, lit "a:1"⟩, ⟨lit "A", 1, lit "b:1"⟩] (lit "A")
      = .ok ⟨2, 1, [(1, lit "b:1"), (0, lit "a:1")]⟩ :=
  ⟨by decide, rfl⟩

/-- C6, amended. On a list whose indices are distinct and lie in `[0, n)`, `n` the
number of entries, `ParseShards` fails with "shard was not found" when no entry is
named `selfName`; when one or more entries are, it succeeds and `CurIdx` is the index
of the last entry so named. -/
theorem C6_ParseShards_selfName (shards : List Shard) (selfName : Bytes)
    (hnd : (shards.map Shard.Idx).Nodup)
    (hrange : ∀ s ∈ shards, 0 ≤ s.Idx ∧ s.Idx < shards.length) :
    ((∀ s ∈ shards, s.Name ≠ selfName) →
      ParseShards shards selfName = .error (.shardWasNotFound selfName)) ∧
    ((∃ s ∈ shards, s.Name = selfName) →
      ∃ t, ParseShards shards selfName = .ok t ∧
        ∃ pre s post, shards = pre ++ s :: post ∧ s.Name = selfName ∧
          (∀ x ∈ post, x.Name ≠ selfName) ∧ t.CurIdx = s.Idx) := by
  obtain ⟨res, hp⟩ := parseEntries_succeeds selfName shards [] (-1) hnd
    (fun _ _ => rfl)
  obtain ⟨addrs, idx⟩ := res
  obtain ⟨-, -, hall, -, hlast⟩ := parseEntries_ok selfName shards [] (-1) addrs idx hp
  have hcover := covering_of_bounded (shards.map Shard.Idx) hnd (by
    intro x hx
    obtain ⟨s, hs, hsx⟩ := List.mem_map.mp hx
    rw [List.length_map, ← hsx]
    exact hrange s hs)
  have hm : firstMissing addrs shards.length = none := by
    rw [firstMissing_eq_none]
    intro i hi
    obtain ⟨s, hs, hsi⟩ := List.mem_map.mp (hcover i (by rw [List.length_map]; exact hi))
    rw [← hsi, hall s hs]
    rfl
  constructor
  · intro hnone
    rcases hlast with ⟨h1, -⟩ | ⟨pre, s, post, h1, h2, -, -⟩
    · simp [ParseShards, hp, hm, h1]
    · exact absurd h2 (hnone s (by rw [h1]; simp))
  · rintro ⟨x, hx, hxn⟩
    rcases hlast with ⟨-, h2⟩ | ⟨pre, s, post, h1, h2, h3, h4⟩
    · exact absurd hxn (h2 x hx)
    · have hs : s ∈ shards := by rw [h1]; simp
      have hge : ¬ idx < 0 := by
        have := (hrange s hs).1
        omega
      refine ⟨{ Addrs := addrs, Count := shards.length, CurIdx := idx }, ?_,
        pre, s, post, h1, h2, h3, h4⟩
      simp [ParseShards, hp, hm, hge]

/-- An instance of C6, amended: no entry is named "C". -/
theorem C6_ParseShards_selfName_witness :
    (([⟨lit "A", 0, lit "a:1"⟩, ⟨lit "B", 1, lit "b:1"⟩] : List Shard).map Shard.Idx).Nodup ∧
    ParseShards [⟨lit "A", 0, lit "a:1"⟩, ⟨lit "B", 1, lit "b:1"⟩] (lit "C")
      = .error (.shardWasNotFound (lit "C")) :=
  ⟨by decide,
    (C6_ParseShards_selfName [⟨lit "A", 0, lit "a:1"⟩, ⟨lit "B", 1, lit "b:1"⟩] (lit "C")
      (by decide) (by decide)).1 (by decide)⟩

/-! ## Purging through the handler, forwarding, and the replica loop -/

/-- On a table whose count is a positive Go `int`, the predicate of the purge handler
never panics. -/
theorem Server.isExtra_eq (s : Server) {n : Nat} (hcount : s.shards.Count = (n : Int))
    (hpos : 0 < n) (hn : n < 2 ^ 63) :
    s.isExtra = fun key =>
      some (decide (((Sum64 key % n : Nat) : Int) ≠ s.shards.CurIdx)) := by
  funext key
  simp only [Server.isExtra, Shards.Index_eq s.shards key hcount hpos hn]

/-- C7. `DeleteExtraKeys` with a predicate `p` leaves in the data bucket exactly the
former entries whose key does not satisfy `p`, unchanged and in their order, and
leaves the outbox as it was. Through the purge handler, on a table `ParseShards`
returned, every key left in the data bucket resolves to the shard of this node, no
entry whose key resolves to the shard of this node is deleted, and the outbox is as
it was. -/
theorem C7_DeleteExtraKeys_frame (s : Server) (p : Bytes → Bool) :
    (∃ d, s.db.DeleteExtraKeys (fun k => some (p k)) = some (d, none) ∧
      d.db.defaultBucket = s.db.db.defaultBucket.filter (fun e => !p e.1) ∧
      d.db.replicaBucket = s.db.db.replicaBucket) ∧
    (∀ (shards : List Shard) (selfName : Bytes) (w : ResponseWriter),
      shards.length < 2 ^ 63 → ParseShards shards selfName = .ok s.shards →
      ∃ d w2, s.DeleteExtraKeysHandler w = some (d, w2) ∧
        d.db.replicaBucket = s.db.db.replicaBucket ∧
        (∀ e ∈ d.db.defaultBucket,
          e ∈ s.db.db.defaultBucket ∧ s.shards.Index e.1 = some s.shards.CurIdx) ∧
        (∀ e ∈ s.db.db.defaultBucket,
          s.shards.Index e.1 = some s.shards.CurIdx → e ∈ d.db.defaultBucket)) := by
  refine ⟨⟨_, Database.DeleteExtraKeys_total s.db p, rfl, rfl⟩, ?_⟩
  intro shards selfName w hlen htable
  obtain ⟨hcount, -, -, -, -, hcur0, hcur1, -⟩ := ParseShards_table htable
  have hpos : 0 < shards.length := by omega
  have hidx := fun key => Shards.Index_eq s.shards key hcount hpos hlen
  have hh : s.DeleteExtraKeysHandler w
      = some ({ db := { defaultBucket := s.db.db.defaultBucket.filter (fun e =>
                          !decide (((Sum64 e.1 % shards.length : Nat) : Int) ≠ s.shards.CurIdx)),
                        replicaBucket := s.db.db.replicaBucket },
                readOnly := s.db.readOnly }, w.Write (lit "Error = " ++ fmtErr none)) := by
    simp only [Server.DeleteExtraKeysHandler, Server.isExtra_eq s hcount hpos hlen,
      Database.DeleteExtraKeys_total]
  refine ⟨_, _, hh, rfl, ?_, ?_⟩
  · intro e he
    have hmem := List.mem_filter.mp he
    refine ⟨hmem.1, ?_⟩
    rw [hidx e.1]
    simpa using hmem.2
  · intro e he hown
    rw [hidx e.1] at hown
    refine List.mem_filter.mpr ⟨he, ?_⟩
    simpa using hown

/-- An instance of C7: shard "A" of two holds the keys "a" (its own) and "foo" (of
shard 1), and "foo" is still in its outbox after the purge. -/
theorem C7_DeleteExtraKeys_frame_witness :
    ParseShards [⟨lit "A", 0, lit "a:1"⟩, ⟨lit "B", 1, lit "b:1"⟩] (lit "A")
      = .ok ⟨2, 0, [(1, lit "b:1"), (0, lit "a:1")]⟩ ∧
    ∃ d w2,
      (⟨⟨⟨[(lit "a", lit "1"), (lit "foo", lit "2")], [(lit "foo", lit "2")]⟩, false⟩,
        ⟨2, 0, [(1, lit "b:1"), (0, lit "a:1")]⟩⟩ : Server).DeleteExtraKeysHandler
          ResponseWriter.fresh = some (d, w2) ∧
      d.db.replicaBucket = [(lit "foo", lit "2")] :=
  ⟨rfl,
    match (C7_DeleteExtraKeys_frame
      ⟨⟨⟨[(lit "a", lit "1"), (lit "foo", lit "2")], [(lit "foo", lit "2")]⟩, false⟩,
        ⟨2, 0, [(1, lit "b:1"), (0, lit "a:1")]⟩⟩ (fun _ => false)).2
      [⟨lit "A", 0, lit "a:1"⟩, ⟨lit "B", 1, lit "b:1"⟩] (lit "A") ResponseWriter.fresh
      (by decide) rfl with
    | ⟨d, w2, h1, h2, _⟩ => ⟨d, w2, h1, h2⟩⟩

/-- The decoder never returns a `NextKeyValue` whose `Err` is set, so the branch of
`client.loop` on `res.Err` (replication.go:67) is not taken. -/
theorem Decode_Err_nil {body : Body} {res : NextKeyValue} (h : Decode body = .ok res) :
    res.Err = none := by
  cases body with
  | invalid msg => simp [Decode] at h
  | object key value err =>
    cases err with
    | none =>
      simp only [Decode, Except.ok.injEq] at h
      rw [← h]
    | some e => simp [Decode] at h

/-- An iteration whose fetch failed in transport or whose body did not decode: a
non-nil error, the one-second pause, no write and no request but the fetch. -/
theorem client.loop_failed (c : client) (p : Primary)
    (h : (∃ e, p.next = .error e) ∨ ∃ body e, p.next = .ok body ∧ Decode body = .error e) :
    (c.loop p).err ≠ none ∧ ClientLoopSleep (c.loop p) = 1000 ∧
    (c.loop p).db = c.db ∧ (c.loop p).sent = [.nextReplicationKey c.masterAddr] := by
  rcases h with ⟨e, he⟩ | ⟨body, e, hb, hd⟩
  · simp [client.loop, ClientLoopSleep, he]
  · simp [client.loop, ClientLoopSleep, hb, hd]

/-- C10. When the body the primary sent carries an error, its `Err` being set, the
iteration of `client.loop` returns a non-nil error, as it does for a transport
failure and for a body that does not decode; `ClientLoop` then pauses one second,
not 100 ms; nothing is written to the local store and no request is sent but the
fetch, so no acknowledgment. No decoded result has `Err` set: the error comes from
the decoder. -/
theorem C10_error_payload_backoff (c : client) (p : Primary) :
    (∀ key value e, p.next = .ok (.object key value (some e)) →
      (c.loop p).err ≠ none ∧ ClientLoopSleep (c.loop p) = 1000 ∧
      (c.loop p).db = c.db ∧ (c.loop p).sent = [.nextReplicationKey c.masterAddr]) ∧
    (∀ e, p.next = .error e →
      (c.loop p).err ≠ none ∧ ClientLoopSleep (c.loop p) = 1000 ∧
      (c.loop p).db = c.db ∧ (c.loop p).sent = [.nextReplicationKey c.masterAddr]) ∧
    (∀ msg, p.next = .ok (.invalid msg) →
      (c.loop p).err ≠ none ∧ ClientLoopSleep (c.loop p) = 1000 ∧
      (c.loop p).db = c.db ∧ (c.loop p).sent = [.nextReplicationKey c.masterAddr]) ∧
    (∀ body res, p.next = .ok body → Decode body = .ok res → res.Err = none) := by
  refine ⟨fun key value e h => ?_, fun e h => ?_, fun msg h => ?_,
    fun body res _ hd => Decode_Err_nil hd⟩
  · exact client.loop_failed c p (Or.inr ⟨_, .unmarshalType, h, rfl⟩)
  · exact client.loop_failed c p (Or.inl ⟨e, h⟩)
  · exact client.loop_failed c p (Or.inr ⟨_, .decoding msg, h, rfl⟩)

/-- An instance of C10: the primary answers with the key "x", the value "1" and an
error, which the encoder writes as the empty object. -/
theorem C10_error_payload_backoff_witness :
    (client.loop ⟨NewDatabase true, lit "m:1"⟩
      ⟨.ok (.object (lit "x") (lit "1") (some (lit "\x7b\x7d"))),
        fun _ _ => .ok (lit "ok")⟩).err ≠ none ∧
    ClientLoopSleep (client.loop ⟨NewDatabase true, lit "m:1"⟩
      ⟨.ok (.object (lit "x") (lit "1") (some (lit "\x7b\x7d"))),
        fun _ _ => .ok (lit "ok")⟩) = 1000 ∧
    (client.loop ⟨NewDatabase true, lit "m:1"⟩
      ⟨.ok (.object (lit "x") (lit "1") (some (lit "\x7b\x7d"))),
        fun _ _ => .ok (lit "ok")⟩).db = NewDatabase true ∧
    (client.loop ⟨NewDatabase true, lit "m:1"⟩
      ⟨.ok (.object (lit "x") (lit "1") (some (lit "\x7b\x7d"))),
        fun _ _ => .ok (lit "ok")⟩).sent = [.nextReplicationKey (lit "m:1")] :=
  (C10_error_payload_backoff ⟨NewDatabase true, lit "m:1"⟩
    ⟨.ok (.object (lit "x") (lit "1") (some (lit "\x7b\x7d"))),
      fun _ _ => .ok (lit "ok")⟩).1 (lit "x") (lit "1") (lit "\x7b\x7d") rfl

end Lazydistdb
